import Mathlib

/-!
Verification of the furigana highlighting core (`logic/kana_highlight.py`).

The Python strings are embedded as `List Char`.  Each definition below mirrors
one function or constant of the source file; regex substitutions are embedded
as explicit scanners with the same leftmost-match, lazy/greedy semantics as the
concrete patterns they come from.
-/

namespace KanaSpec

abbrev Str := List Char

/-- Convert a Lean string literal to the `List Char` representation. -/
def jstr (s : String) : Str := s.toList

/-- Python `needle in hay` (substring containment). -/
def occursIn (needle : Str) : Str → Bool
  | [] => needle.isEmpty
  | c :: t => needle.isPrefixOf (c :: t) || occursIn needle t

/-- Python `s.split(sep)` for a one-character separator: the list of chunks,
empty chunks included (`"".split(sep) == [""]`). -/
def splitOnSep (sep : Char) : Str → List Str
  | [] => [[]]
  | c :: t =>
    if c = sep then [] :: splitOnSep sep t
    else
      match splitOnSep sep t with
      | [] => [[c]]
      | h :: r => (c :: h) :: r

/-- Split `hay` around the first (leftmost) occurrence of `needle`:
the pair `(before, after)` with `before ++ needle ++ after = hay`.  This is the
decomposition produced by the lazy regex `(.*?)(needle)` of the source. -/
def splitFirst (needle : Str) : Str → Option (Str × Str)
  | [] => if needle.isEmpty then some ([], []) else none
  | c :: t =>
    if needle.isPrefixOf (c :: t) then some ([], (c :: t).drop needle.length)
    else
      match splitFirst needle t with
      | some (p, q) => some (c :: p, q)
      | none => none

/-- Split `hay` around the last (rightmost) occurrence of `needle`: the
decomposition produced by the greedy regex `(.*)(needle)` of the source. -/
def splitLast (needle : Str) : Str → Option (Str × Str)
  | [] => if needle.isEmpty then some ([], []) else none
  | c :: t =>
    match splitLast needle t with
    | some (p, q) => some (c :: p, q)
    | none =>
      if needle.isPrefixOf (c :: t) then some ([], (c :: t).drop needle.length)
      else none

/-- Python `hay.find(needle)`: index of the first occurrence, `none` for -1. -/
def findSubIdx (hay needle : Str) : Option Nat :=
  match hay with
  | [] => if needle.isEmpty then some 0 else none
  | _ :: t =>
    if needle.isPrefixOf hay then some 0
    else (findSubIdx t needle).map (· + 1)

/-- Python `s.strip()` restricted to the space character (the only whitespace
appearing in reading lists). -/
def stripSpaces (s : Str) : Str :=
  ((s.dropWhile (· = ' ')).reverse.dropWhile (· = ' ')).reverse

/-- Helper for `stripParens`: drop everything up to and including the first
`)` of the list, or report that there is none. -/
def dropThroughParen : Str → Option Str
  | [] => none
  | c :: t => if c = ')' then some t else dropThroughParen t

/-- Python `re.sub(r"\(.*?\)", "", s)`: delete every parenthesized group, a
group reaching from a `(` to the nearest following `)`. -/
def stripParensAux : Nat → Str → Str
  | 0, s => s
  | _ + 1, [] => []
  | fuel + 1, c :: t =>
    if c = '(' then
      match dropThroughParen t with
      | some rest => stripParensAux fuel rest
      | none => c :: t
    else c :: stripParensAux fuel t

def stripParens (s : Str) : Str := stripParensAux s.length s

/-- Python `s.replace(needle, repl)` for a nonempty needle: replace every
(non-overlapping, leftmost-first) occurrence. -/
def replaceAllAux (needle repl : Str) : Nat → Str → Str
  | 0, s => s
  | _ + 1, [] => []
  | fuel + 1, c :: t =>
    if needle.isPrefixOf (c :: t) ∧ ¬needle.isEmpty then
      repl ++ replaceAllAux needle repl fuel ((c :: t).drop needle.length)
    else c :: replaceAllAux needle repl fuel t

def replaceAll (needle repl : Str) (s : Str) : Str :=
  replaceAllAux needle repl s.length s

/-- The hiragana/katakana correspondence used by the `kana_conv` module.
Modelled from the spec: the module itself is not among the sources; the spec
says onyomi readings are normalized to hiragana for matching and rendered in
katakana when highlighted, which is the standard U+3041..U+3096 to
U+30A1..U+30F6 correspondence tabulated here. -/
def kanaShiftTable : List (Char × Char) :=
  [('ぁ', 'ァ'), ('あ', 'ア'), ('ぃ', 'ィ'), ('い', 'イ'), ('ぅ', 'ゥ'), ('う', 'ウ'), ('ぇ', 'ェ'), ('え', 'エ'),
   ('ぉ', 'ォ'), ('お', 'オ'), ('か', 'カ'), ('が', 'ガ'), ('き', 'キ'), ('ぎ', 'ギ'), ('く', 'ク'), ('ぐ', 'グ'),
   ('け', 'ケ'), ('げ', 'ゲ'), ('こ', 'コ'), ('ご', 'ゴ'), ('さ', 'サ'), ('ざ', 'ザ'), ('し', 'シ'), ('じ', 'ジ'),
   ('す', 'ス'), ('ず', 'ズ'), ('せ', 'セ'), ('ぜ', 'ゼ'), ('そ', 'ソ'), ('ぞ', 'ゾ'), ('た', 'タ'), ('だ', 'ダ'),
   ('ち', 'チ'), ('ぢ', 'ヂ'), ('っ', 'ッ'), ('つ', 'ツ'), ('づ', 'ヅ'), ('て', 'テ'), ('で', 'デ'), ('と', 'ト'),
   ('ど', 'ド'), ('な', 'ナ'), ('に', 'ニ'), ('ぬ', 'ヌ'), ('ね', 'ネ'), ('の', 'ノ'), ('は', 'ハ'), ('ば', 'バ'),
   ('ぱ', 'パ'), ('ひ', 'ヒ'), ('び', 'ビ'), ('ぴ', 'ピ'), ('ふ', 'フ'), ('ぶ', 'ブ'), ('ぷ', 'プ'), ('へ', 'ヘ'),
   ('べ', 'ベ'), ('ぺ', 'ペ'), ('ほ', 'ホ'), ('ぼ', 'ボ'), ('ぽ', 'ポ'), ('ま', 'マ'), ('み', 'ミ'), ('む', 'ム'),
   ('め', 'メ'), ('も', 'モ'), ('ゃ', 'ャ'), ('や', 'ヤ'), ('ゅ', 'ュ'), ('ゆ', 'ユ'), ('ょ', 'ョ'), ('よ', 'ヨ'),
   ('ら', 'ラ'), ('り', 'リ'), ('る', 'ル'), ('れ', 'レ'), ('ろ', 'ロ'), ('ゎ', 'ヮ'), ('わ', 'ワ'), ('ゐ', 'ヰ'),
   ('ゑ', 'ヱ'), ('を', 'ヲ'), ('ん', 'ン'), ('ゔ', 'ヴ'), ('ゕ', 'ヵ'), ('ゖ', 'ヶ')]

/-- One character of `to_katakana`. -/
def kataChar (c : Char) : Char :=
  match kanaShiftTable.find? (fun p => p.1 == c) with
  | some p => p.2
  | none => c

/-- One character of `to_hiragana`. -/
def hiraChar (c : Char) : Char :=
  match kanaShiftTable.find? (fun p => p.2 == c) with
  | some p => p.1
  | none => c

/-- Modelled from the spec: `to_katakana` of the absent `kana_conv` module. -/
def to_katakana (s : Str) : Str := s.map kataChar

/-- Modelled from the spec: `to_hiragana` of the absent `kana_conv` module. -/
def to_hiragana (s : Str) : Str := s.map hiraChar

/-- HIRAGANA_CONVERSION_DICT of the source: rendaku (voicing) alternatives of
an unvoiced first kana. -/
def HIRAGANA_CONVERSION_DICT : List (Char × List Char) :=
  [('か', ['が']), ('き', ['ぎ']), ('く', ['ぐ']), ('け', ['げ']), ('こ', ['ご']),
   ('さ', ['ざ']), ('し', ['じ']), ('す', ['ず']), ('せ', ['ぜ']), ('そ', ['ぞ']),
   ('た', ['だ']), ('ち', ['ぢ']), ('つ', ['づ']), ('て', ['で']), ('と', ['ど']),
   ('は', ['ば', 'ぱ']), ('ひ', ['び', 'ぴ']), ('ふ', ['ぶ', 'ぷ']), ('へ', ['べ', 'ぺ']),
   ('ほ', ['ぼ', 'ぽ'])]

/-- Lookup in HIRAGANA_CONVERSION_DICT. -/
def hiraganaConversion (c : Char) : Option (List Char) :=
  (HIRAGANA_CONVERSION_DICT.find? (fun p => p.1 == c)).map (·.2)

/-- SMALL_TSU_POSSIBLE_HIRAGANA of the source. -/
def SMALL_TSU_POSSIBLE_HIRAGANA : List Char :=
  ['つ', 'ち', 'く', 'き', 'う', 'り', 'ん']


/-- ALL_MORA of the source, in its exact order (two-kana units mostly first,
then single-kana units; duplicates kept). -/
def ALL_MORA : List Str :=
  [(r"くぃ").toList, (r"きゃ").toList, (r"きゅ").toList, (r"きぇ").toList, (r"きょ").toList, 
   (r"ぐぃ").toList, (r"ご").toList, (r"ぎゃ").toList, (r"ぎゅ").toList, (r"ぎぇ").toList, (r"ぎょ").toList, 
   (r"すぃ").toList, (r"しゃ").toList, (r"しゅ").toList, (r"しぇ").toList, (r"しょ").toList, 
   (r"ずぃ").toList, (r"じゃ").toList, (r"じゅ").toList, (r"じぇ").toList, (r"じょ").toList, 
   (r"てぃ").toList, (r"とぅ").toList, (r"ちゃ").toList, (r"ちゅ").toList, (r"ちぇ").toList, 
   (r"ちょ").toList, (r"でぃ").toList, (r"どぅ").toList, (r"ぢゃ").toList, (r"でゅ").toList, 
   (r"ぢゅ").toList, (r"ぢぇ").toList, (r"ぢょ").toList, (r"つぁ").toList, (r"つぃ").toList, 
   (r"つぇ").toList, (r"つぉ").toList, (r"づぁ").toList, (r"づぃ").toList, (r"づぇ").toList, 
   (r"づぉ").toList, (r"ひぃ").toList, (r"ほぅ").toList, (r"ひゃ").toList, (r"ひゅ").toList, 
   (r"ひぇ").toList, (r"ひょ").toList, (r"びぃ").toList, (r"ぼ").toList, (r"びゃ").toList, (r"びゅ").toList, 
   (r"びぇ").toList, (r"びょ").toList, (r"ぴぃ").toList, (r"ぴゃ").toList, (r"ぴゅ").toList, 
   (r"ぴぇ").toList, (r"ぴょ").toList, (r"ふぁ").toList, (r"ふぃ").toList, (r"ふぇ").toList, 
   (r"ふぉ").toList, (r"ゔぁ").toList, (r"ゔぃ").toList, (r"ゔ").toList, (r"ゔぇ").toList, (r"ゔぉ").toList, 
   (r"ぬぃ").toList, (r"の").toList, (r"にゃ").toList, (r"にゅ").toList, (r"にぇ").toList, (r"にょ").toList, 
   (r"むぃ").toList, (r"みゃ").toList, (r"みゅ").toList, (r"みぇ").toList, (r"みょ").toList, 
   (r"るぃ").toList, (r"りゃ").toList, (r"りゅ").toList, (r"りぇ").toList, (r"りょ").toList, 
   (r"いぇ").toList, (r"か").toList, (r"く").toList, (r"け").toList, (r"こ").toList, (r"き").toList, 
   (r"が").toList, (r"ぐ").toList, (r"げ").toList, (r"ご").toList, (r"ぎ").toList, (r"さ").toList, 
   (r"す").toList, (r"せ").toList, (r"そ").toList, (r"し").toList, (r"ざ").toList, (r"ず").toList, 
   (r"づ").toList, (r"ぜ").toList, (r"ぞ").toList, (r"じ").toList, (r"ぢ").toList, (r"た").toList, 
   (r"とぅ").toList, (r"て").toList, (r"と").toList, (r"ち").toList, (r"だ").toList, (r"で").toList, 
   (r"ど").toList, (r"ぢ").toList, (r"つ").toList, (r"づ").toList, (r"は").toList, (r"へ").toList, 
   (r"ほ").toList, (r"ひ").toList, (r"ば").toList, (r"ぶ").toList, (r"べ").toList, (r"ぼ").toList, 
   (r"ぼ").toList, (r"び").toList, (r"ぱ").toList, (r"ぷ").toList, (r"べ").toList, (r"ぽ").toList, 
   (r"ぴ").toList, (r"ふ").toList, (r"ゔぃ").toList, (r"ゔ").toList, (r"な").toList, (r"ぬ").toList, 
   (r"ね").toList, (r"の").toList, (r"に").toList, (r"ま").toList, (r"む").toList, (r"め").toList, 
   (r"も").toList, (r"み").toList, (r"ら").toList, (r"る").toList, (r"れ").toList, (r"ろ").toList, 
   (r"り").toList, (r"あ").toList, (r"い").toList, (r"う").toList, (r"え").toList, (r"お").toList, 
   (r"や").toList, (r"ゆ").toList, (r"よ").toList, (r"わ").toList, (r"ゐ").toList, (r"ゑ").toList, 
   (r"を").toList]

/-- Edge classification of the target character inside a word (the string
constants LEFT, RIGHT, MIDDLE, WHOLE of the source). -/
inductive Edge
  | left
  | right
  | middle
  | whole
deriving DecidableEq, Repr

/-- Match kind of a MainResult ("onyomi" / "kunyomi" / "none"). -/
inductive MatchType
  | onyomi
  | kunyomi
  | noMatch
deriving DecidableEq, Repr

/-- MainResult TypedDict of the source. -/
structure MainResult where
  text : Str
  rtype : MatchType
deriving DecidableEq, Repr

/-- WordData TypedDict of the source.  `kanji_pos` and `kanji_count` are
optional because `dict.get` may produce `None`; both handlers set them. -/
structure WordData where
  kanji_pos : Option Nat
  kanji_count : Option Nat
  word : Str
  furigana : Str
  okurigana : Str
  edge : Edge
deriving DecidableEq, Repr

/-- HighlightArgs TypedDict of the source. -/
structure HighlightArgs where
  text : Str
  onyomi : Str
  kunyomi : Str
  kanji_to_highlight : Str
deriving DecidableEq, Repr

/-- get_target_furigana_section of the source.  The Python "no edge" error
branch is unreachable here because `Edge` is total: both handlers always set
one of the four constants. -/
def get_target_furigana_section (furigana : Str) (edge : Edge) : Str :=
  match edge with
  | .whole => furigana
  | .left => furigana.dropLast
  | .right => furigana.drop 1
  | .middle => (furigana.drop 1).dropLast

/-- Stable insertion of a reading into a list sorted by decreasing length:
an element is placed before the first strictly shorter one, so that elements
of equal length keep their original order, as Python's stable sort does. -/
def insertByLenDesc (x : Str) : List Str → List Str
  | [] => [x]
  | y :: t =>
    if y.length ≤ x.length then x :: y :: t
    else y :: insertByLenDesc x t

/-- Python `readings.sort(key=len, reverse=True)`: stable sort by decreasing
raw length (the length of the reading before its parenthetical annotation is
stripped). -/
def sortByLenDesc : List Str → List Str
  | [] => []
  | h :: t => insertByLenDesc h (sortByLenDesc t)

/-- First string of `vs` occurring in `sec` (one for-loop of the source). -/
def firstOccurring (vs : List Str) (sec : Str) : Option Str :=
  vs.find? (fun v => occursIn v sec)

/-- The small-tsu branch shared by the onyomi and kunyomi loops: if the last
kana of the reading is in SMALL_TSU_POSSIBLE_HIRAGANA, try the variant whose
last kana is replaced by the geminate marker. -/
def geminationMatch (r sec : Str) : Option Str :=
  match r.getLast? with
  | some lc =>
    if lc ∈ SMALL_TSU_POSSIBLE_HIRAGANA then
      if occursIn (r.dropLast ++ ['っ']) sec then some (r.dropLast ++ ['っ']) else none
    else none
  | none => none

/-- The rendaku inner for-loop shared by both reading checks: the first
voiced variant of the first kana that occurs in the section. -/
def rendakuVariantsMatch (c : Char) (rest sec : Str) : Option Str :=
  match hiraganaConversion c with
  | some alts => firstOccurring (alts.map (fun k => k :: rest)) sec
  | none => none

/-- Body of the onyomi for-loop of check_onyomi_readings for one processed
reading: direct occurrence, then the rendaku variants of the first kana (only
when the reading has more than one kana), then the gemination variant. -/
def onyomiReadingMatch (r sec : Str) : Option Str :=
  if occursIn r sec then some r
  else
    match r with
    | [] => none
    | c :: rest =>
      match (if rest.isEmpty then none else rendakuVariantsMatch c rest sec) with
      | some v => some v
      | none => geminationMatch (c :: rest) sec

/-- Pre-processing of one raw onyomi reading inside the loop: strip the
parenthetical annotation, strip spaces, normalize to hiragana. -/
def processOnyomiReading (raw : Str) : Str :=
  to_hiragana (stripSpaces (stripParens raw))

/-- The onyomi loop: first reading (in the sorted order) one of whose variants
occurs in the section, together with the matched variant.  The raw reading is
returned as well so that theorems can speak about its (sort-key) length. -/
def findOnyomiMatch (readings : List Str) (sec : Str) : Option (Str × Str) :=
  match readings with
  | [] => none
  | raw :: rest =>
    match onyomiReadingMatch (processOnyomiReading raw) sec with
    | some v => some (raw, v)
    | none => findOnyomiMatch rest sec

/-- The emphasis opening marker. -/
def bTag : Str := ('<' :: 'b' :: '>' :: [])

/-- The emphasis closing marker. -/
def bTagClose : Str := ('<' :: '/' :: 'b' :: '>' :: [])

/-- onyomi_replacer of the source applied to the regex groups: the matched
span is written in katakana between emphasis markers. -/
def onyomiTagged (v : Str) : Str := bTag ++ to_katakana v ++ bTagClose

/-- kunyomi_replacer of the source applied to the regex groups. -/
def kunyomiTagged (v : Str) : Str := bTag ++ v ++ bTagClose

/-- replace_onyomi_match of the source: splice emphasis markers around the
occurrence of the matched reading selected by the edge-specific regex
(last occurrence for `right` via the greedy prefix, first occurrence
otherwise); when the reading does not occur, re.sub leaves the furigana
unchanged. -/
def replace_onyomi_match (furigana v : Str) (edge : Edge) : Str :=
  match edge with
  | .right =>
    match splitLast v furigana with
    | some (p, q) => p ++ onyomiTagged v ++ q
    | none => furigana
  | _ =>
    match splitFirst v furigana with
    | some (p, q) => p ++ onyomiTagged v ++ q
    | none => furigana

/-- replace_kunyomi_match of the source (its MainResult wrapper is applied at
the call site). -/
def replace_kunyomi_match (furigana v : Str) (edge : Edge) : Str :=
  match edge with
  | .right =>
    match splitLast v furigana with
    | some (p, q) => p ++ kunyomiTagged v ++ q
    | none => furigana
  | _ =>
    match splitFirst v furigana with
    | some (p, q) => p ++ kunyomiTagged v ++ q
    | none => furigana

/-- check_onyomi_readings of the source. -/
def check_onyomi_readings (onyomi furigana sec : Str) (edge : Edge)
    (return_on_or_kun_match_only : Bool) : MainResult :=
  match findOnyomiMatch (sortByLenDesc (splitOnSep '、' onyomi)) sec with
  | some (_, v) =>
    if return_on_or_kun_match_only then { text := [], rtype := .onyomi }
    else { text := replace_onyomi_match furigana v edge, rtype := .onyomi }
  | none => { text := [], rtype := .noMatch }

/-- Stem extraction of one kunyomi reading: the part before the single `.`;
`none` signals the malformed case of more than one `.` (the ValueError branch
of the source). -/
def kunyomiStemOf (r : Str) : Option Str :=
  match splitOnSep '.' r with
  | [s] => some s
  | [s, _] => some s
  | _ => none

/-- Body of the kunyomi loop for one stem: direct occurrence, rendaku variants
of the first kana (with no length restriction, unlike the onyomi loop), then
the gemination variant. -/
def kunyomiStemMatch (stem sec : Str) : Option Str :=
  if occursIn stem sec then some stem
  else
    match stem with
    | [] => none
    | c :: rest =>
      match rendakuVariantsMatch c rest sec with
      | some v => some v
      | none => geminationMatch (c :: rest) sec

/-- Outcome of the kunyomi loop. -/
inductive KunScan
  | found (v : Str)
  | malformed
  | noneFound
deriving DecidableEq, Repr

/-- The kunyomi loop of check_kunyomi_readings: readings are tried in list
order; a reading with more than one `.` aborts the loop (the source returns
the furigana unchanged there, and the diagnostic goes to the module-internal
`log`, which is a no-op since LOG is False — not to show_error_message). -/
def findKunyomiMatch (readings : List Str) (sec : Str) : KunScan :=
  match readings with
  | [] => .noneFound
  | r :: rest =>
    match kunyomiStemOf r with
    | none => .malformed
    | some stem =>
      match kunyomiStemMatch stem sec with
      | some v => .found v
      | none => findKunyomiMatch rest sec

/-- check_kunyomi_readings of the source. -/
def check_kunyomi_readings (kunyomi furigana sec : Str) (edge : Edge)
    (return_on_or_kun_match_only : Bool) : MainResult :=
  match findKunyomiMatch (splitOnSep '、' kunyomi) sec with
  | .found v =>
    if return_on_or_kun_match_only then { text := [], rtype := .kunyomi }
    else { text := replace_kunyomi_match furigana v edge, rtype := .kunyomi }
  | .malformed => { text := furigana, rtype := .kunyomi }
  | .noneFound => { text := [], rtype := .noMatch }

/-- VERB_NOUN_OKURIGANA of the source, keyed by the whole kunyomi okurigana
template. -/
def VERB_NOUN_OKURIGANA : List (Str × Str) :=
  [((r"る").toList, (r"り").toList), ((r"む").toList, (r"み").toList),
   ((r"ぬ").toList, (r"に").toList), ((r"ぐ").toList, (r"ぎ").toList),
   ((r"ぶ").toList, (r"び").toList), ((r"める").toList, (r"め").toList)]

/-- Lookup in VERB_NOUN_OKURIGANA. -/
def verbNounLookup (k : Str) : Option Str :=
  (VERB_NOUN_OKURIGANA.find? (fun p => p.1 == k)).map (·.2)

/-- READING_FIRST_KANA_TO_POSSIBLE_INFLECTED_FIRST_KANA of the source.  Keys
are strings; the two-kana key める is unreachable through the single-character
key taken from the template, exactly as in the source. -/
def READING_FIRST_KANA_TO_POSSIBLE_INFLECTED_FIRST_KANA : List (Str × List Char) :=
  [((r"う").toList, ['っ', 'い', 'わ', 'お', 'え']),
   ((r"く").toList, ['き', 'か', 'け', 'こ']),
   ((r"ぐ").toList, ['ぎ', 'が', 'げ', 'ご']),
   ((r"す").toList, ['し', 'さ', 'せ', 'そ']),
   ((r"つ").toList, ['っ', 'ち', 'た', 'て', 'と']),
   ((r"ぬ").toList, ['に', 'な', 'ね', 'の']),
   ((r"ぶ").toList, ['び', 'ば', 'べ', 'ぼ']),
   ((r"む").toList, ['み', 'ま', 'め', 'も']),
   ((r"る").toList, ['り', 'ら', 'れ', 'ろ']),
   ((r"める").toList, ['め'])]

/-- Lookup in READING_FIRST_KANA_TO_POSSIBLE_INFLECTED_FIRST_KANA. -/
def readingFirstKanaLookup (k : Str) : Option (List Char) :=
  (READING_FIRST_KANA_TO_POSSIBLE_INFLECTED_FIRST_KANA.find? (fun p => p.1 == k)).map (·.2)

/-- OTHER_FIRST_KANA of the source. -/
def OTHER_FIRST_KANA : List (Char × Char) :=
  [('べ', 'る'), ('か', 'す'), ('げ', 'る'), ('た', 'る')]

/-- Lookup in OTHER_FIRST_KANA. -/
def otherFirstKana (c : Char) : Option Char :=
  (OTHER_FIRST_KANA.find? (fun p => p.1 == c)).map (·.2)

/-- NOT_FIRST_KANA of the source. -/
def NOT_FIRST_KANA : List Char :=
  ['を', 'ぽ', 'ぷ', 'ぴ', 'ぱ', 'へ', 'ぺ', 'あ', 'お', 'や', 'ゆ', 'よ', 'ろ', 'ふ', 'ゐ']

/-- VERB_ALL_OKURIGANA of the source.  In Python this is a set interpolated
into a regex alternation, so its iteration order is unspecified (and, with
hash randomization, varies between runs); we model the insertion order of the
literal.  Duplicate entries of the literal are kept; they cannot change the
first-match result. -/
def VERB_ALL_OKURIGANA : List Str :=
  [(r"ます").toList, (r"ました").toList, (r"ません").toList, (r"ませんでした").toList, (r"った").toList, 
   (r"いた").toList, (r"んだ").toList, (r"た").toList, (r"ない").toList, (r"なかった").toList, 
   (r"て").toList, (r"ましたら").toList, (r"ませんでしたら").toList, (r"たら").toList, (r"なかったら").toList, 
   (r"ましょう").toList, (r"ませんか").toList, (r"よう").toList, (r"まい").toList, (r"れる").toList, 
   (r"れない").toList, (r"れた").toList, (r"れなかった").toList, (r"れます").toList, (r"れません").toList, 
   (r"る").toList, (r"ない").toList, (r"なかった").toList, (r"ません").toList, (r"ろ").toList, 
   (r"ろう").toList, (r"るな").toList, (r"なさい").toList, (r"な").toList, (r"させる").toList, 
   (r"させない").toList, (r"させた").toList, (r"させなかった").toList, (r"させます").toList, (r"させません").toList, 
   (r"せる").toList, (r"せない").toList, (r"せた").toList, (r"せなかった").toList, (r"せます").toList, 
   (r"せません").toList, (r"られる").toList, (r"られない").toList, (r"られた").toList, (r"られます").toList, 
   (r"られなかった").toList, (r"られません").toList, (r"れる").toList, (r"れない").toList, (r"れた").toList, 
   (r"れなかった").toList, (r"れます").toList, (r"れません").toList, (r"えば").toList, (r"れば").toList, 
   (r"えなければ").toList, (r"えたら").toList, (r"えなかったら").toList, (r"ている").toList, (r"ていない").toList, 
   (r"ていた").toList, (r"ていなかった").toList, (r"ています").toList, (r"ていません").toList, (r"てる").toList, 
   (r"てない").toList, (r"てた").toList, (r"てなかった").toList, (r"てます").toList, (r"てません").toList, 
   (r"きる").toList]

/-- ADJECTIVE_INFLECTIONS of the source (a set literal; insertion order
modelled, same caveat as VERB_ALL_OKURIGANA). -/
def ADJECTIVE_INFLECTIONS : List Str :=
  [(r"い").toList, (r"く").toList, (r"かった").toList, (r"くない").toList, (r"くなかった").toList,
   (r"くて").toList, (r"ければ").toList, (r"けれど").toList, (r"かろう").toList, (r"かろうか").toList,
   (r"かれ").toList, (r"かれば").toList, (r"かれど").toList]

/-- IRREGULAR_VERB_INFLECTIONS of the source (only the 来 entry exists; its
alternatives have no prefix relations, so their order cannot matter). -/
def IRREGULAR_VERB_INFLECTIONS : List (Str × List Str) :=
  [((r"来").toList,
    [(r"たす").toList, (r"たる").toList, (r"たり").toList, (r"なければ").toList,
     (r"なくて").toList, (r"き").toList])]

/-- Lookup in IRREGULAR_VERB_INFLECTIONS. -/
def irregularVerbInflections (kanji : Str) : Option (List Str) :=
  (IRREGULAR_VERB_INFLECTIONS.find? (fun p => p.1 == kanji)).map (·.2)

/-- Matching of `pattern.match(t)` for a regex of the shape
`(alt1|alt2|...)(.*)$` anchored at the start: the first alternative (in table
order) that is a prefix of `t`, together with the rest of `t`. -/
def firstPrefixSplit (alts : List Str) (t : Str) : Option (Str × Str) :=
  match alts.find? (fun a => a.isPrefixOf t) with
  | some a => some (a, t.drop a.length)
  | none => none

/-- The conjugation-table block of check_okurigana_for_kunyomi_inflection:
optionally consume a lead-in kana from `possible`, then the irregular-verb
table of the target character (when it has one), then the general verb table;
both tables are matched as first-prefix-in-table-order. -/
def verbInflectionStage (o0 : Char) (orest okurigana : Str)
    (possible : List Char) (kanji : Str) : Str × Str :=
  let startTarget : Str × Str :=
    if o0 ∈ possible then ([o0], orest) else ([], okurigana)
  match (match irregularVerbInflections kanji with
         | some alts => firstPrefixSplit alts startTarget.2
         | none => none) with
  | some (a, g2) => (startTarget.1 ++ a, g2)
  | none =>
    match firstPrefixSplit VERB_ALL_OKURIGANA startTarget.2 with
    | some (a, g2) => (startTarget.1 ++ a, g2)
    | none => ([], okurigana)

/-- The i-adjective block of check_okurigana_for_kunyomi_inflection. -/
def adjInflectionStage (o0 : Char) (orest okurigana : Str) : Str × Str :=
  let startTarget : Str × Str :=
    if o0 = 'し' ∨ o0 = 'き' then ([o0], orest) else ([], okurigana)
  match firstPrefixSplit ADJECTIVE_INFLECTIONS startTarget.2 with
  | some (a, g2) => (startTarget.1 ++ a, g2)
  | none => ([], okurigana)

/-- check_okurigana_for_kunyomi_inflection of the source. -/
def check_okurigana_for_kunyomi_inflection (kunyomi_okurigana : Str)
    (word_data : WordData) (highlight_args : HighlightArgs) : Str × Str :=
  let okurigana := word_data.okurigana
  if word_data.edge ≠ .right ∧ word_data.edge ≠ .whole then ([], okurigana)
  else if kunyomi_okurigana.isEmpty ∨ okurigana.isEmpty then ([], okurigana)
  else if kunyomi_okurigana = okurigana then (okurigana, [])
  else
    match okurigana, kunyomi_okurigana with
    | o0 :: orest, k0 :: _ =>
      if o0 ∈ NOT_FIRST_KANA then ([], okurigana)
      else if verbNounLookup kunyomi_okurigana = some okurigana then (okurigana, [])
      else
        let key : Char :=
          match otherFirstKana k0 with
          | some k => k
          | none => k0
        match readingFirstKanaLookup [key] with
        | some possible =>
          if o0 = key then ([o0], orest)
          else
            match orest with
            | o1 :: orest2 =>
              if otherFirstKana o0 = some o1 then ([o0, o1], orest2)
              else verbInflectionStage o0 orest okurigana possible
                highlight_args.kanji_to_highlight
            | [] => verbInflectionStage o0 orest okurigana possible
                highlight_args.kanji_to_highlight
        | none =>
          if kunyomi_okurigana.getLast? = some 'い' then
            adjInflectionStage o0 orest okurigana
          else ([], okurigana)
    | _, _ => ([], okurigana)

/-- First mora of the table (in table order) that is a prefix of `s`: one
match attempt of `ALL_MORA_REC.findall` at one position. -/
def firstMoraAt (s : Str) : Option Str :=
  ALL_MORA.find? (fun m => m.isPrefixOf s)

/-- `ALL_MORA_REC.findall(furigana)` of the source: scan left to right; at
each position emit the first table entry that matches there and jump past it,
or skip one character if none matches (so characters absent from the table,
such as っ and ん, are dropped); every table entry is nonempty, so a fuel of
the input length is exact. -/
def moraSplitAux : Nat → Str → List Str
  | 0, _ => []
  | _ + 1, [] => []
  | fuel + 1, c :: t =>
    match firstMoraAt (c :: t) with
    | some m => m :: moraSplitAux fuel ((c :: t).drop m.length)
    | none => moraSplitAux fuel t

def moraSplit (s : Str) : List Str := moraSplitAux s.length s

/-- Concatenation of `mora_list[cur:mx]` (the inner for-loop of
handle_jukujigun_case; in all reachable states the range stays inside the
list, so the truncating take/drop model coincides with Python indexing). -/
def jukuSlice (mora : List Str) (cur mx : Nat) : Str :=
  ((mora.drop cur).take (mx - cur)).flatten

/-- The main for-loop of handle_jukujigun_case: `steps` iterations remain,
`kanji_index` is the current index, `cur` the current mora index and `rem`
the remainder still to distribute. -/
def jukuGo (mora : List Str) (kanji_pos kanji_count per : Nat) :
    Nat → Nat → Nat → Nat → Str
  | 0, _, _, _ => []
  | steps + 1, kanji_index, cur, rem =>
    let mx := cur + per + (if 0 < rem then 1 else 0)
    let rem2 := rem - (if 0 < rem then 1 else 0)
    let openT : Str :=
      if kanji_index = kanji_pos then bTag
      else if kanji_index = kanji_pos + 1 then bTagClose
      else []
    let closeT : Str :=
      if kanji_index = kanji_pos ∧ kanji_index = kanji_count - 1 then bTagClose
      else []
    openT ++ jukuSlice mora cur mx ++ closeT ++
      jukuGo mora kanji_pos kanji_count per steps (kanji_index + 1) mx rem2

/-- handle_jukujigun_case of the source (taking the `kanji_pos`/`kanji_count`
fields, which process_readings has already checked to be present). -/
def handle_jukujigun_case (kanji_pos kanji_count : Nat) (furigana : Str) :
    MainResult :=
  let mora := moraSplit furigana
  let per := mora.length / kanji_count
  let rem := mora.length % kanji_count
  { text := jukuGo mora kanji_pos kanji_count per kanji_count 0 0 rem,
    rtype := .kunyomi }

/-- The while-loop of process_readings that looks for okurigana to highlight:
kunyomi readings in list order; entries without exactly one `.` are skipped
(the ValueError branch), and the loop stops at the first nonempty highlight. -/
def okuriLoop (readings : List Str) (word_data : WordData)
    (highlight_args : HighlightArgs) : Str × Str :=
  match readings with
  | [] => ([], word_data.okurigana)
  | r :: rest =>
    match splitOnSep '.' r with
    | [_, kunOku] =>
      if (check_okurigana_for_kunyomi_inflection kunOku word_data highlight_args).1.isEmpty
      then okuriLoop rest word_data highlight_args
      else check_okurigana_for_kunyomi_inflection kunOku word_data highlight_args
    | _ => okuriLoop rest word_data highlight_args

/-- process_readings of the source.  The fourth component collects the
messages passed to the caller-supplied show_error_message sink. -/
def process_readings (highlight_args : HighlightArgs) (word_data : WordData)
    (return_on_or_kun_match_only : Bool) :
    MainResult × Str × Str × List String :=
  if (check_onyomi_readings highlight_args.onyomi word_data.furigana
      (get_target_furigana_section word_data.furigana word_data.edge)
      word_data.edge return_on_or_kun_match_only).rtype = .onyomi then
    (check_onyomi_readings highlight_args.onyomi word_data.furigana
      (get_target_furigana_section word_data.furigana word_data.edge)
      word_data.edge return_on_or_kun_match_only, [], word_data.okurigana, [])
  else if (check_kunyomi_readings highlight_args.kunyomi word_data.furigana
      (get_target_furigana_section word_data.furigana word_data.edge)
      word_data.edge return_on_or_kun_match_only).rtype = .kunyomi then
    (check_kunyomi_readings highlight_args.kunyomi word_data.furigana
      (get_target_furigana_section word_data.furigana word_data.edge)
      word_data.edge return_on_or_kun_match_only,
     (okuriLoop (splitOnSep '、' highlight_args.kunyomi) word_data highlight_args).1,
     (okuriLoop (splitOnSep '、' highlight_args.kunyomi) word_data highlight_args).2, [])
  else
    match word_data.kanji_count, word_data.kanji_pos with
    | some n, some p =>
      (handle_jukujigun_case p n word_data.furigana, [], word_data.okurigana, [])
    | _, _ =>
      ({ text := word_data.furigana, rtype := .noMatch }, [], word_data.okurigana,
       [r"Error in kana_highlight[]: process_readings() called with no kanji_count or kanji_pos specified"])

/-- The WordData record built by handle_whole_kanji_case. -/
def wholeWordData (word furigana okurigana : Str) : WordData :=
  { kanji_pos := some 0, kanji_count := some 1, furigana := furigana,
    edge := .whole, word := word, okurigana := okurigana }

/-- handle_whole_kanji_case of the source; second component: sink messages. -/
def handle_whole_kanji_case (highlight_args : HighlightArgs)
    (word furigana okurigana : Str) : Str × List String :=
  if (process_readings highlight_args (wholeWordData word furigana okurigana) true).1.rtype
      = .onyomi then
    (bTag ++ to_katakana furigana ++ bTagClose ++
      (process_readings highlight_args (wholeWordData word furigana okurigana) true).2.2.1,
     (process_readings highlight_args (wholeWordData word furigana okurigana) true).2.2.2)
  else
    (bTag ++ furigana ++
      (process_readings highlight_args (wholeWordData word furigana okurigana) true).2.1 ++
      bTagClose ++
      (process_readings highlight_args (wholeWordData word furigana okurigana) true).2.2.1,
     (process_readings highlight_args (wholeWordData word furigana okurigana) true).2.2.2)

/-- The WordData record built by handle_partial_kanji_case: edge is middle when
the target is neither at index 0 nor at the last index, else left when at
index 0, else right. -/
def partialWordData (word furigana okurigana : Str) (kanji_pos : Nat) : WordData :=
  { kanji_pos := some kanji_pos, kanji_count := some word.length,
    furigana := furigana,
    edge :=
      if ¬kanji_pos = 0 ∧ ¬kanji_pos = word.length - 1 then .middle
      else if kanji_pos = 0 then .left
      else .right,
    word := word, okurigana := okurigana }

/-- handle_partial_kanji_case of the source. -/
def handle_partial_kanji_case (highlight_args : HighlightArgs)
    (word furigana okurigana : Str) : Str × List String :=
  match findSubIdx word highlight_args.kanji_to_highlight with
  | none => (furigana ++ okurigana, [])
  | some kanji_pos =>
    if (process_readings highlight_args
        (partialWordData word furigana okurigana kanji_pos) false).2.1.isEmpty then
      ((process_readings highlight_args
          (partialWordData word furigana okurigana kanji_pos) false).1.text ++
        (process_readings highlight_args
          (partialWordData word furigana okurigana kanji_pos) false).2.2.1,
       (process_readings highlight_args
          (partialWordData word furigana okurigana kanji_pos) false).2.2.2)
    else
      (replaceAll (bTagClose ++ bTag) []
        ((process_readings highlight_args
            (partialWordData word furigana okurigana kanji_pos) false).1.text ++
          bTag ++
          (process_readings highlight_args
            (partialWordData word furigana okurigana kanji_pos) false).2.1 ++
          bTagClose ++
          (process_readings highlight_args
            (partialWordData word furigana okurigana kanji_pos) false).2.2.1),
       (process_readings highlight_args
          (partialWordData word furigana okurigana kanji_pos) false).2.2.2)

/-- furigana_replacer of kana_highlight: one replacement of the main regex. -/
def furigana_replacer (highlight_args : HighlightArgs)
    (word furigana okurigana : Str) : Str × List String :=
  if ((r"sound:").toList).isPrefixOf furigana then (furigana ++ okurigana, [])
  else if word = highlight_args.kanji_to_highlight ∨
      word = highlight_args.kanji_to_highlight ++ ['々'] then
    handle_whole_kanji_case highlight_args word furigana okurigana
  else handle_partial_kanji_case highlight_args word furigana okurigana

/-- Character class of KANJI_RE: `[\d々一-龯㐀-䶿]` (ASCII and
fullwidth digits cover the decimal digits appearing in the texts). -/
def isKanjiChar (c : Char) : Bool :=
  c.isDigit || c == '々' ||
    decide ((0xFF10 ≤ c.toNat ∧ c.toNat ≤ 0xFF19) ∨
      (0x4E00 ≤ c.toNat ∧ c.toNat ≤ 0x9FAF) ∨
      (0x3400 ≤ c.toNat ∧ c.toNat ≤ 0x4DBF))

/-- Character class of HIRAGANA_RE: `[ぁ-ん]` (U+3041..U+3093). -/
def isHiraganaChar (c : Char) : Bool :=
  decide (0x3041 ≤ c.toNat ∧ c.toNat ≤ 0x3093)

/-- Parse of `(.+?)\]` after an opening bracket: the lazy group takes
everything up to the first `]` that leaves the group nonempty; returns the
group and the rest after the `]`. -/
def glossSplit (r : Str) : Option (Str × Str) :=
  match r with
  | [] => none
  | g0 :: g1 =>
    match splitFirst [']'] g1 with
    | some (p, q) => some (g0 :: p, q)
    | none => none

/-- The substitution loop of KANJI_AND_FURIGANA_AND_OKURIGANA_REC.sub: at each
position, a maximal kanji run immediately followed by a bracketed gloss and a
greedy hiragana run is replaced through furigana_replacer; otherwise the
scanner advances one character.  `fuel` bounds the recursion (any value above
the length of the text is exact). -/
def highlightScan (highlight_args : HighlightArgs) : Nat → Str → Str × List String
  | 0, s => (s, [])
  | _ + 1, [] => ([], [])
  | fuel + 1, c :: t =>
    if isKanjiChar c then
      match (c :: t).dropWhile isKanjiChar with
      | '[' :: r2 =>
        match glossSplit r2 with
        | some (gloss, after) =>
          let run := (c :: t).takeWhile isKanjiChar
          let okuri := after.takeWhile isHiraganaChar
          let rest2 := after.dropWhile isHiraganaChar
          let rep := furigana_replacer highlight_args run gloss okuri
          let restOut := highlightScan highlight_args fuel rest2
          (rep.1 ++ restOut.1, rep.2 ++ restOut.2)
        | none =>
          let restOut := highlightScan highlight_args fuel t
          (c :: restOut.1, restOut.2)
      | _ =>
        let restOut := highlightScan highlight_args fuel t
        (c :: restOut.1, restOut.2)
    else
      let restOut := highlightScan highlight_args fuel t
      (c :: restOut.1, restOut.2)

/-- Lengths from `n` down to `1` (backtracking order of a greedy `+` group). -/
def descFrom1 (n : Nat) : List Nat := (List.range n).map (fun i => n - i)

/-- Lengths from `n` down to `0` (backtracking order of a greedy `*` group). -/
def descFrom0 (n : Nat) : List Nat := (List.range (n + 1)).map (fun i => n - i)

/-- Lengths from `1` up to `n` (matching order of a lazy `+?` group). -/
def ascFrom1 (n : Nat) : List Nat := (List.range n).map (· + 1)

/-- Lengths from `0` up to `n` (matching order of a lazy `*?` group). -/
def ascFrom0 (n : Nat) : List Nat := List.range (n + 1)

/-- okurigana_mix_cleaning_replacer of the source. -/
def mixReplacement (k1 f1 h1 k2 f2 h2 : Str) : Str :=
  k1 ++ '[' :: (f1 ++ ']' :: h1) ++
    (if f2.isEmpty then [] else k2 ++ '[' :: (f2 ++ ']' :: h2))

/-- One match attempt of OKURIGANA_MIX_CLEANING_RE at the head of `s`,
following the backtracking order of the pattern
`(kanji+)(hira+)(kanji*)(hira*)\[(.+?)\2(.*?)\4\]`: greedy groups try longer
splits first, lazy groups shorter ones, and the first complete success wins.
Returns the replacement text and the rest after the match. -/
def mixMatchAt (s : Str) : Option (Str × Str) :=
  (descFrom1 ((s.takeWhile isKanjiChar).length)).findSome? fun l1 =>
    let g1 := s.take l1
    let s1 := s.drop l1
    (descFrom1 ((s1.takeWhile isHiraganaChar).length)).findSome? fun l2 =>
      let g2 := s1.take l2
      let s2 := s1.drop l2
      (descFrom0 ((s2.takeWhile isKanjiChar).length)).findSome? fun l3 =>
        let g3 := s2.take l3
        let s3 := s2.drop l3
        (descFrom0 ((s3.takeWhile isHiraganaChar).length)).findSome? fun l4 =>
          let g4 := s3.take l4
          let s4 := s3.drop l4
          match s4 with
          | '[' :: s5 =>
            (ascFrom1 s5.length).findSome? fun l5 =>
              let g5 := s5.take l5
              let s6 := s5.drop l5
              if g2.isPrefixOf s6 then
                let s7 := s6.drop g2.length
                (ascFrom0 s7.length).findSome? fun l6 =>
                  let g6 := s7.take l6
                  let s8 := s7.drop l6
                  if g4.isPrefixOf s8 then
                    match s8.drop g4.length with
                    | ']' :: s9 => some (mixReplacement g1 g5 g2 g3 g6 g4, s9)
                    | _ => none
                  else none
              else none
          | _ => none

/-- OKURIGANA_MIX_CLEANING_RE.sub(okurigana_mix_cleaning_replacer, text). -/
def mixCleanScan : Nat → Str → Str
  | 0, s => s
  | _ + 1, [] => []
  | fuel + 1, c :: t =>
    match mixMatchAt (c :: t) with
    | some (rep, rest) => rep ++ mixCleanScan fuel rest
    | none => c :: mixCleanScan fuel t

/-- One match attempt of `([^ >]+?)\[(.+?)\]` (without the optional leading
space) at the head of `s`: the lazy word group expands until a bracketed gloss
follows.  Returns word, gloss and the rest. -/
def wordGlossAt (s : Str) : Option (Str × Str × Str) :=
  (ascFrom1 s.length).findSome? fun lw =>
    let w := s.take lw
    if w.all (fun c => c != ' ' && c != '>') then
      match s.drop lw with
      | '[' :: r2 =>
        match glossSplit r2 with
        | some (g, after) => some (w, g, after)
        | _ => none
      | _ => none
    else none

/-- FURIGANA_REC.sub(bracket_replace, text) of kana_filter: a match optionally
eats one leading space (greedily); a match whose word group starts with
`sound:` is kept whole (group 0, leading space included), any other match is
replaced by `match.group(1)` — the word group, not the bracketed reading,
although the source's comment says it returns the furigana. -/
def furiganaFilterScan : Nat → Str → Str
  | 0, s => s
  | _ + 1, [] => []
  | fuel + 1, c :: t =>
    if c = ' ' then
      match wordGlossAt t with
      | some (w, g, after) =>
        (if ((r"sound:").toList).isPrefixOf w
         then ' ' :: (w ++ '[' :: (g ++ [']'])) else w) ++ furiganaFilterScan fuel after
      | none => c :: furiganaFilterScan fuel t
    else
      match wordGlossAt (c :: t) with
      | some (w, g, after) =>
        (if ((r"sound:").toList).isPrefixOf w
         then w ++ '[' :: (g ++ [']']) else w) ++ furiganaFilterScan fuel after
      | none => c :: furiganaFilterScan fuel t

/-- kana_filter of the source: each bracketed unit is replaced by its word
group (the reading is discarded), then every kanji character is removed — so
on a fully glossed unit such as 切手[きって] it returns the empty string,
its own docstring ("we'll be left with the correct kana") notwithstanding. -/
def kana_filter (text : Str) : Str :=
  let t := replaceAll ((r"&nbsp;").toList) [' '] text
  let t2 := furiganaFilterScan (t.length + 1) t
  t2.filter (fun c => !isKanjiChar c)

/-- kana_highlight of the source; second component: the messages handed to the
caller-supplied show_error_message sink.  Note that the source never strips
pre-existing emphasis markers from `text`, although its docstring says the
returned text is cleaned of previous b tags. -/
def kana_highlight (kanji_to_highlight onyomi kunyomi text : Str) :
    Str × List String :=
  let highlight_args : HighlightArgs :=
    { text := text, onyomi := onyomi, kunyomi := kunyomi,
      kanji_to_highlight := kanji_to_highlight }
  let clean1 := mixCleanScan (text.length + 1) text
  let clean2 := replaceAll ((r"秘蔵[ひぞ]っ").toList) ((r"秘蔵[ひぞっ]").toList) clean1
  highlightScan highlight_args (clean2.length + 1) clean2

/-- Characters used by the emphasis markers. -/
def isTagChar (c : Char) : Bool :=
  c == '<' || c == '>' || c == '/' || c == 'b'

/-- The kana content of a rendered string: marker characters removed and the
script normalized to hiragana.  On marker-free kana input this is just
hiragana normalization. -/
def essence (s : Str) : Str :=
  to_hiragana (s.filter (fun c => !isTagChar c))

/-- A string free of marker characters (true of every kana string). -/
def tagFree (s : Str) : Prop := ∀ c ∈ s, isTagChar c = false

instance tagFreeDecidable (s : Str) : Decidable (tagFree s) :=
  inferInstanceAs (Decidable (∀ c ∈ s, isTagChar c = false))

/-- Literal removal of the emphasis markers, for stating the round-trip
property the way the spec phrases it. -/
def removeTags : Str → Str
  | [] => []
  | '<' :: 'b' :: '>' :: t => removeTags t
  | '<' :: '/' :: 'b' :: '>' :: t => removeTags t
  | c :: t => c :: removeTags t

section BasicLemmas

theorem prefix_drop_eq {n s : Str} (h : n.isPrefixOf s) :
    n ++ s.drop n.length = s := by
  rw [List.isPrefixOf_iff_prefix] at h
  obtain ⟨t, rfl⟩ := h
  simp

theorem splitFirst_spec (needle : Str) :
    ∀ hay p q, splitFirst needle hay = some (p, q) → p ++ needle ++ q = hay := by
  intro hay
  induction hay with
  | nil =>
    intro p q h
    by_cases hn : needle.isEmpty
    · simp only [splitFirst, hn, if_pos] at h
      obtain ⟨rfl, rfl⟩ := Prod.mk.injEq .. ▸ (Option.some.injEq .. ▸ h)
      have hne : needle = [] := by simpa [List.isEmpty_iff] using hn
      simp [hne]
    · simp [splitFirst, hn] at h
  | cons c t ih =>
    intro p q h
    rw [splitFirst] at h
    by_cases hpre : needle.isPrefixOf (c :: t)
    · rw [if_pos hpre] at h
      simp only [Option.some.injEq, Prod.mk.injEq] at h
      obtain ⟨rfl, rfl⟩ := h
      simpa using prefix_drop_eq hpre
    · rw [if_neg hpre] at h
      cases hsf : splitFirst needle t with
      | none => rw [hsf] at h; simp at h
      | some pq =>
        obtain ⟨p2, q2⟩ := pq
        rw [hsf] at h
        simp only [Option.some.injEq, Prod.mk.injEq] at h
        obtain ⟨rfl, rfl⟩ := h
        have := ih p2 q2 hsf
        simp [← this]

theorem splitLast_spec (needle : Str) :
    ∀ hay p q, splitLast needle hay = some (p, q) → p ++ needle ++ q = hay := by
  intro hay
  induction hay with
  | nil =>
    intro p q h
    by_cases hn : needle.isEmpty
    · simp only [splitLast, hn, if_pos] at h
      obtain ⟨rfl, rfl⟩ := Prod.mk.injEq .. ▸ (Option.some.injEq .. ▸ h)
      have hne : needle = [] := by simpa [List.isEmpty_iff] using hn
      simp [hne]
    · simp [splitLast, hn] at h
  | cons c t ih =>
    intro p q h
    rw [splitLast] at h
    cases hsf : splitLast needle t with
    | some pq =>
      obtain ⟨p2, q2⟩ := pq
      rw [hsf] at h
      simp only [Option.some.injEq, Prod.mk.injEq] at h
      obtain ⟨rfl, rfl⟩ := h
      have := ih p2 q2 hsf
      simp [← this]
    | none =>
      rw [hsf] at h
      by_cases hpre : needle.isPrefixOf (c :: t)
      · rw [if_pos hpre] at h
        simp only [Option.some.injEq, Prod.mk.injEq] at h
        obtain ⟨rfl, rfl⟩ := h
        simpa using prefix_drop_eq hpre
      · rw [if_neg hpre] at h
        simp at h

theorem firstPrefixSplit_spec (alts : List Str) (t a g : Str)
    (h : firstPrefixSplit alts t = some (a, g)) :
    a ∈ alts ∧ a ++ g = t := by
  unfold firstPrefixSplit at h
  cases hf : alts.find? (fun x => x.isPrefixOf t) with
  | none => rw [hf] at h; simp at h
  | some a2 =>
    rw [hf] at h
    simp only [Option.some.injEq, Prod.mk.injEq] at h
    obtain ⟨rfl, rfl⟩ := h
    refine ⟨List.mem_of_find?_eq_some hf, ?_⟩
    have hp := List.find?_some hf
    exact prefix_drop_eq (by simpa using hp)

theorem firstOccurring_occurs (vs : List Str) (sec v : Str)
    (h : firstOccurring vs sec = some v) : occursIn v sec = true := by
  have hp := List.find?_some h
  simpa using hp

theorem geminationMatch_occurs (r sec v : Str)
    (h : geminationMatch r sec = some v) : occursIn v sec = true := by
  unfold geminationMatch at h
  repeat' split at h
  all_goals simp_all

theorem rendakuVariantsMatch_occurs (c : Char) (rest sec v : Str)
    (h : rendakuVariantsMatch c rest sec = some v) : occursIn v sec = true := by
  unfold rendakuVariantsMatch at h
  split at h
  · exact firstOccurring_occurs _ _ _ h
  · simp at h

theorem onyomiReadingMatch_occurs (r sec v : Str)
    (h : onyomiReadingMatch r sec = some v) : occursIn v sec = true := by
  unfold onyomiReadingMatch at h
  by_cases hocc : occursIn r sec = true
  · rw [if_pos hocc] at h
    simp only [Option.some.injEq] at h
    exact h ▸ hocc
  · rw [if_neg hocc] at h
    cases r with
    | nil => simp at h
    | cons c rest =>
      simp only at h
      split at h
      · rename_i v2 hrend
        simp only [Option.some.injEq] at h
        subst h
        split at hrend
        · simp at hrend
        · exact rendakuVariantsMatch_occurs _ _ _ _ hrend
      · exact geminationMatch_occurs _ _ _ h

theorem kunyomiStemMatch_occurs (stem sec v : Str)
    (h : kunyomiStemMatch stem sec = some v) : occursIn v sec = true := by
  unfold kunyomiStemMatch at h
  by_cases hocc : occursIn stem sec = true
  · rw [if_pos hocc] at h
    simp only [Option.some.injEq] at h
    exact h ▸ hocc
  · rw [if_neg hocc] at h
    cases stem with
    | nil => simp at h
    | cons c rest =>
      simp only at h
      split at h
      · rename_i v2 hrend
        simp only [Option.some.injEq] at h
        subst h
        exact rendakuVariantsMatch_occurs _ _ _ _ hrend
      · exact geminationMatch_occurs _ _ _ h

theorem findOnyomiMatch_occurs (readings : List Str) (sec r v : Str)
    (h : findOnyomiMatch readings sec = some (r, v)) : occursIn v sec = true := by
  induction readings with
  | nil => simp [findOnyomiMatch] at h
  | cons raw rest ih =>
    rw [findOnyomiMatch] at h
    cases hm : onyomiReadingMatch (processOnyomiReading raw) sec with
    | some v2 =>
      rw [hm] at h
      simp only [Option.some.injEq, Prod.mk.injEq] at h
      obtain ⟨rfl, rfl⟩ := h
      exact onyomiReadingMatch_occurs _ _ _ hm
    | none =>
      rw [hm] at h
      exact ih h

end BasicLemmas

section ShapeLemmas

theorem onyomiReadingMatch_shape (r sec v : Str)
    (h : onyomiReadingMatch r sec = some v) :
    v = r ∨
    (∃ c rest alts k, r = c :: rest ∧ rest ≠ [] ∧
      hiraganaConversion c = some alts ∧ k ∈ alts ∧ v = k :: rest) ∨
    (∃ lc, r.getLast? = some lc ∧ lc ∈ SMALL_TSU_POSSIBLE_HIRAGANA ∧
      v = r.dropLast ++ ['っ']) := by
  unfold onyomiReadingMatch at h
  by_cases hocc : occursIn r sec = true
  · rw [if_pos hocc] at h
    simp only [Option.some.injEq] at h
    exact Or.inl h.symm
  · rw [if_neg hocc] at h
    cases r with
    | nil => simp at h
    | cons c rest =>
      simp only at h
      split at h
      · rename_i v2 hrend
        simp only [Option.some.injEq] at h
        subst h
        split at hrend
        · simp at hrend
        · rename_i hne
          unfold rendakuVariantsMatch at hrend
          split at hrend
          · rename_i alts hconv
            have hmem := List.mem_of_find?_eq_some hrend
            obtain ⟨k, hk, rfl⟩ := List.mem_map.mp hmem
            refine Or.inr (Or.inl ⟨c, rest, alts, k, rfl, ?_, hconv, hk, rfl⟩)
            simpa [List.isEmpty_iff] using hne
          · simp at hrend
      · rename_i hrendnone
        unfold geminationMatch at h
        split at h
        · rename_i lc hlast
          split at h
          · rename_i hmem
            split at h
            · simp only [Option.some.injEq] at h
              exact Or.inr (Or.inr ⟨lc, hlast, hmem, h.symm⟩)
            · simp at h
          · simp at h
        · simp at h

theorem kunyomiStemMatch_shape (stem sec v : Str)
    (h : kunyomiStemMatch stem sec = some v) :
    v = stem ∨
    (∃ c rest alts k, stem = c :: rest ∧
      hiraganaConversion c = some alts ∧ k ∈ alts ∧ v = k :: rest) ∨
    (∃ lc, stem.getLast? = some lc ∧ lc ∈ SMALL_TSU_POSSIBLE_HIRAGANA ∧
      v = stem.dropLast ++ ['っ']) := by
  unfold kunyomiStemMatch at h
  by_cases hocc : occursIn stem sec = true
  · rw [if_pos hocc] at h
    simp only [Option.some.injEq] at h
    exact Or.inl h.symm
  · rw [if_neg hocc] at h
    cases stem with
    | nil => simp at h
    | cons c rest =>
      simp only at h
      split at h
      · rename_i v2 hrend
        simp only [Option.some.injEq] at h
        subst h
        unfold rendakuVariantsMatch at hrend
        split at hrend
        · rename_i alts hconv
          have hmem := List.mem_of_find?_eq_some hrend
          obtain ⟨k, hk, rfl⟩ := List.mem_map.mp hmem
          exact Or.inr (Or.inl ⟨c, rest, alts, k, rfl, hconv, hk, rfl⟩)
        · simp at hrend
      · rename_i hrendnone
        unfold geminationMatch at h
        split at h
        · rename_i lc hlast
          split at h
          · rename_i hmem
            split at h
            · simp only [Option.some.injEq] at h
              exact Or.inr (Or.inr ⟨lc, hlast, hmem, h.symm⟩)
            · simp at h
          · simp at h
        · simp at h

end ShapeLemmas

section OkuriganaPartition


theorem firstPrefixSplit_append (alts : List Str) (t a g : Str)
    (h : firstPrefixSplit alts t = some (a, g)) : a ++ g = t :=
  (firstPrefixSplit_spec alts t a g h).2

theorem verbInflectionStage_partition (o0 : Char) (orest okurigana : Str)
    (possible : List Char) (kanji : Str) (hok : okurigana = o0 :: orest) :
    (verbInflectionStage o0 orest okurigana possible kanji).1 ++
      (verbInflectionStage o0 orest okurigana possible kanji).2 = okurigana := by
  simp only [verbInflectionStage]
  by_cases hp : o0 ∈ possible
  · simp only [hp, if_pos]
    split
    · rename_i a g2 heq
      split at heq
      · rename_i alts hirr
        have := firstPrefixSplit_append _ _ _ _ heq
        simp only at this ⊢
        rw [hok, ← this]
        simp
      · simp at heq
    · rename_i heq
      split
      · rename_i a g2 hsp
        have := firstPrefixSplit_append _ _ _ _ hsp
        simp only at this ⊢
        rw [hok, ← this]
        simp
      · simp [hok]
  · simp only [hp, if_neg, not_false_eq_true]
    split
    · rename_i a g2 heq
      split at heq
      · rename_i alts hirr
        have := firstPrefixSplit_append _ _ _ _ heq
        simp only at this ⊢
        rw [← this]
        simp
      · simp at heq
    · rename_i heq
      split
      · rename_i a g2 hsp
        have := firstPrefixSplit_append _ _ _ _ hsp
        simp only at this ⊢
        rw [← this]
        simp
      · simp


theorem adjInflectionStage_partition (o0 : Char) (orest okurigana : Str)
    (hok : okurigana = o0 :: orest) :
    (adjInflectionStage o0 orest okurigana).1 ++
      (adjInflectionStage o0 orest okurigana).2 = okurigana := by
  simp only [adjInflectionStage]
  by_cases hp : o0 = 'し' ∨ o0 = 'き'
  · simp only [hp, if_pos]
    split
    · rename_i a g2 hsp
      have := firstPrefixSplit_append _ _ _ _ hsp
      simp only at this ⊢
      rw [hok, ← this]
      simp
    · simp [hok]
  · simp only [hp, if_neg, not_false_eq_true]
    split
    · rename_i a g2 hsp
      have := firstPrefixSplit_append _ _ _ _ hsp
      simp only at this ⊢
      rw [← this]
      simp
    · simp

theorem check_okurigana_partition (ko : Str) (wd : WordData) (ha : HighlightArgs) :
    (check_okurigana_for_kunyomi_inflection ko wd ha).1 ++
      (check_okurigana_for_kunyomi_inflection ko wd ha).2 = wd.okurigana := by
  simp only [check_okurigana_for_kunyomi_inflection]
  repeat' split
  all_goals
    simp_all [verbInflectionStage_partition, adjInflectionStage_partition]


end OkuriganaPartition

section LoopLemmas

theorem okuriLoop_partition (readings : List Str) (wd : WordData)
    (ha : HighlightArgs) :
    (okuriLoop readings wd ha).1 ++ (okuriLoop readings wd ha).2 = wd.okurigana := by
  induction readings with
  | nil => simp [okuriLoop]
  | cons r rest ih =>
    rw [okuriLoop]
    split
    · rename_i x w kunOku heq
      split
      · exact ih
      · exact check_okurigana_partition kunOku wd ha
    · exact ih

theorem mem_insertByLenDesc {x y : Str} {l : List Str} :
    y ∈ insertByLenDesc x l ↔ y = x ∨ y ∈ l := by
  induction l with
  | nil => simp [insertByLenDesc]
  | cons z t ih =>
    rw [insertByLenDesc]
    split
    · simp
    · simp only [List.mem_cons, ih]
      tauto

theorem mem_sortByLenDesc {x : Str} {l : List Str} :
    x ∈ sortByLenDesc l ↔ x ∈ l := by
  induction l with
  | nil => simp [sortByLenDesc]
  | cons h t ih =>
    rw [sortByLenDesc]
    rw [mem_insertByLenDesc]
    simp [ih]

theorem pairwise_insertByLenDesc (x : Str) (l : List Str)
    (h : l.Pairwise (fun a b => b.length ≤ a.length)) :
    (insertByLenDesc x l).Pairwise (fun a b => b.length ≤ a.length) := by
  induction l with
  | nil => simp [insertByLenDesc]
  | cons y t ih =>
    rw [insertByLenDesc]
    rw [List.pairwise_cons] at h
    split
    · rename_i hle
      rw [List.pairwise_cons]
      constructor
      · intro z hz
        rcases List.mem_cons.mp hz with rfl | hzt
        · exact hle
        · exact le_trans (h.1 z hzt) hle
      · exact List.pairwise_cons.mpr h
    · rename_i hgt
      rw [List.pairwise_cons]
      constructor
      · intro z hz
        rcases mem_insertByLenDesc.mp hz with rfl | hzt
        · omega
        · exact h.1 z hzt
      · exact ih h.2

theorem sortByLenDesc_pairwise (l : List Str) :
    (sortByLenDesc l).Pairwise (fun a b => b.length ≤ a.length) := by
  induction l with
  | nil => simp [sortByLenDesc]
  | cons h t ih => exact pairwise_insertByLenDesc h (sortByLenDesc t) ih

theorem onyomiReadingMatch_of_occurs {r sec : Str}
    (h : occursIn r sec = true) : onyomiReadingMatch r sec = some r := by
  unfold onyomiReadingMatch
  rw [if_pos h]

theorem findOnyomiMatch_maxlen (sec : Str) (l : List Str)
    (hsorted : l.Pairwise (fun a b => b.length ≤ a.length)) (r : Str)
    (hr : r ∈ l) (hocc : occursIn (processOnyomiReading r) sec = true) :
    ∃ p, findOnyomiMatch l sec = some p ∧ r.length ≤ p.1.length := by
  induction l with
  | nil => simp at hr
  | cons raw rest ih =>
    rw [List.pairwise_cons] at hsorted
    rw [findOnyomiMatch]
    cases hm : onyomiReadingMatch (processOnyomiReading raw) sec with
    | some v =>
      refine ⟨(raw, v), rfl, ?_⟩
      rcases List.mem_cons.mp hr with rfl | hrr
      · exact le_refl _
      · exact hsorted.1 r hrr
    | none =>
      have hraw : raw ≠ r := by
        intro heq
        rw [heq, onyomiReadingMatch_of_occurs hocc] at hm
        simp at hm
      have hrr : r ∈ rest := by
        rcases List.mem_cons.mp hr with rfl | hrr
        · exact absurd rfl hraw
        · exact hrr
      exact ih hsorted.2 hrr

theorem findKunyomiMatch_first (sec : Str) (l1 : List Str) (r : Str)
    (l2 : List Str) (stem v : Str)
    (hfail : ∀ r' ∈ l1, ∃ s', kunyomiStemOf r' = some s' ∧
      kunyomiStemMatch s' sec = none)
    (hstem : kunyomiStemOf r = some stem)
    (hmatch : kunyomiStemMatch stem sec = some v) :
    findKunyomiMatch (l1 ++ r :: l2) sec = .found v := by
  induction l1 with
  | nil =>
    rw [List.nil_append]
    simp [findKunyomiMatch, hstem, hmatch]
  | cons r1 t1 ih =>
    obtain ⟨s1, hs1, hn1⟩ := hfail r1 (List.mem_cons_self r1 t1)
    rw [List.cons_append]
    rw [findKunyomiMatch]
    simp only [hs1, hn1]
    exact ih (fun r' hr' => hfail r' (List.mem_cons_of_mem r1 hr'))

end LoopLemmas

section JukujigunLemmas

theorem slice_flatten_append (mora : List Str) (cur a b : Nat) :
    ((mora.drop cur).take a).flatten ++ ((mora.drop (cur + a)).take b).flatten
      = ((mora.drop cur).take (a + b)).flatten := by
  have hd : (mora.drop cur).drop a = mora.drop (cur + a) := by
    rw [List.drop_drop]
  rw [List.take_add, List.flatten_append, hd]

theorem jukuSlice_eq (mora : List Str) (cur a : Nat) :
    jukuSlice mora cur (cur + a) = ((mora.drop cur).take a).flatten := by
  simp [jukuSlice]

theorem jukuGo_plain (mora : List Str) (pos n per : Nat) :
    ∀ steps i cur rem, pos + 1 < i →
    jukuGo mora pos n per steps i cur rem =
      ((mora.drop cur).take (per * steps + min steps rem)).flatten := by
  intro steps
  induction steps with
  | zero => intro i cur rem hi; simp [jukuGo]
  | succ s ih =>
    intro i cur rem hi
    rw [jukuGo]
    have h1 : ¬ i = pos := by omega
    have h2 : ¬ i = pos + 1 := by omega
    have h3 : ¬ (i = pos ∧ i = n - 1) := fun hc => h1 hc.1
    rw [if_neg h1, if_neg h2, if_neg h3]
    rw [ih (i + 1) _ _ (by omega)]
    simp only [List.nil_append, List.append_nil]
    have hmx : cur + per + (if 0 < rem then 1 else 0)
        = cur + (per + (if 0 < rem then 1 else 0)) := by omega
    rw [hmx, jukuSlice_eq, slice_flatten_append]
    have harg : per + (if 0 < rem then 1 else 0) +
        (per * s + min s (rem - (if 0 < rem then 1 else 0)))
        = per * (s + 1) + min (s + 1) rem := by
      rw [Nat.mul_succ]
      by_cases hr : 0 < rem
      · simp only [hr, if_pos]
        omega
      · simp only [hr, if_neg, not_false_eq_true]
        omega
    rw [harg]


theorem jukuGo_close (mora : List Str) (pos n per : Nat) (s cur rem : Nat) :
    jukuGo mora pos n per (s + 1) (pos + 1) cur rem =
      bTagClose ++ ((mora.drop cur).take (per * (s + 1) + min (s + 1) rem)).flatten := by
  rw [jukuGo]
  have h1 : ¬ pos + 1 = pos := by omega
  have h3 : ¬ (pos + 1 = pos ∧ pos + 1 = n - 1) := fun hc => h1 hc.1
  rw [if_neg h1, if_pos rfl, if_neg h3]
  rw [jukuGo_plain mora pos n per s (pos + 2) _ _ (by omega)]
  simp only [List.append_nil, List.append_assoc]
  congr 1
  have hmx : cur + per + (if 0 < rem then 1 else 0)
      = cur + (per + (if 0 < rem then 1 else 0)) := by omega
  rw [hmx, jukuSlice_eq, slice_flatten_append]
  have harg : per + (if 0 < rem then 1 else 0) +
      (per * s + min s (rem - (if 0 < rem then 1 else 0)))
      = per * (s + 1) + min (s + 1) rem := by
    rw [Nat.mul_succ]
    by_cases hr : 0 < rem
    · simp only [hr, if_pos]
      omega
    · simp only [hr, if_neg, not_false_eq_true]
      omega
  rw [harg]

theorem jukuGo_at_pos (mora : List Str) (pos n per : Nat) :
    ∀ s cur rem, s + 1 = n - pos → pos < n →
    jukuGo mora pos n per (s + 1) pos cur rem =
      bTag ++ ((mora.drop cur).take (per + (if 0 < rem then 1 else 0))).flatten ++
      bTagClose ++
      ((mora.drop (cur + (per + (if 0 < rem then 1 else 0)))).take
        (per * s + min s (rem - (if 0 < rem then 1 else 0)))).flatten := by
  intro s cur rem hs hpos
  rw [jukuGo]
  rw [if_pos rfl]
  have hmx : cur + per + (if 0 < rem then 1 else 0)
      = cur + (per + (if 0 < rem then 1 else 0)) := by omega
  by_cases hlast : pos = n - 1
  · have hs0 : s = 0 := by omega
    subst hs0
    rw [if_pos (show pos = pos ∧ pos = n - 1 from ⟨rfl, hlast⟩)]
    rw [jukuGo, hmx, jukuSlice_eq]
    simp
  · rw [if_neg (show ¬(pos = pos ∧ pos = n - 1) from fun hc => hlast hc.2)]
    cases s with
    | zero => exact absurd (by omega) hlast
    | succ t =>
      rw [jukuGo_close mora pos n per t, hmx, jukuSlice_eq]
      simp [List.append_assoc]


theorem ifpos_eq_min (rem : Nat) : (if 0 < rem then 1 else 0) = min 1 rem := by
  by_cases hr : 0 < rem
  · simp only [hr, if_pos]
    omega
  · simp only [hr, if_neg, not_false_eq_true]
    omega

set_option maxHeartbeats 1000000 in
theorem jukuGo_master (mora : List Str) (pos n per : Nat) :
    ∀ steps i cur rem, i + steps = n → i ≤ pos → pos < n →
    jukuGo mora pos n per steps i cur rem =
      ((mora.drop cur).take (per * (pos - i) + min (pos - i) rem)).flatten ++ bTag ++
      ((mora.drop (cur + (per * (pos - i) + min (pos - i) rem))).take
        ((per * (pos - i + 1) + min (pos - i + 1) rem)
          - (per * (pos - i) + min (pos - i) rem))).flatten ++
      bTagClose ++
      ((mora.drop (cur + (per * (pos - i + 1) + min (pos - i + 1) rem))).take
        ((per * steps + min steps rem)
          - (per * (pos - i + 1) + min (pos - i + 1) rem))).flatten := by
  intro steps
  induction steps with
  | zero =>
    intro i cur rem htot hle hpos
    exact absurd htot (by omega)
  | succ s ih =>
    intro i cur rem htot hle hpos
    by_cases hip : i = pos
    · subst hip
      have hs : s + 1 = n - i := by omega
      rw [jukuGo_at_pos mora i n per s cur rem hs hpos]
      rw [Nat.sub_self]
      simp only [ifpos_eq_min]
      have hms : per * (s + 1) = per * s + per := by ring
      have e2 : per * (0 + 1) + min (0 + 1) rem - (per * 0 + min 0 rem)
          = per + min 1 rem := by omega
      have e3 : per * (s + 1) + min (s + 1) rem - (per * (0 + 1) + min (0 + 1) rem)
          = per * s + min s (rem - min 1 rem) := by
        rw [hms]
        omega
      have e4 : cur + (per * (0 + 1) + min (0 + 1) rem)
          = cur + (per + min 1 rem) := by omega
      rw [e2, e3, e4]
      simp
    · have hlt : i < pos := by omega
      rw [jukuGo]
      have h1 : ¬ i = pos := hip
      have h2 : ¬ i = pos + 1 := by omega
      have h3 : ¬ (i = pos ∧ i = n - 1) := fun hc => h1 hc.1
      rw [if_neg h1, if_neg h2, if_neg h3]
      rw [ih (i + 1) _ _ (by omega) (by omega) hpos]
      simp only [List.nil_append, List.append_nil, ← List.append_assoc]
      obtain ⟨k, hk⟩ : ∃ k, pos - i = k + 1 := ⟨pos - i - 1, by omega⟩
      have hk2 : pos - (i + 1) = k := by omega
      rw [hk, hk2]
      have hmx : cur + per + (if 0 < rem then 1 else 0)
          = cur + (per + (if 0 < rem then 1 else 0)) := by omega
      rw [hmx, jukuSlice_eq, slice_flatten_append]
      simp only [ifpos_eq_min]
      have hm2 : per * (k + 1 + 1) = per * k + per + per := by ring
      have hm1 : per * (k + 1) = per * k + per := by ring
      have hms : per * (s + 1) = per * s + per := by ring
      have hsk : k + 1 ≤ s := by omega
      have e1 : per + min 1 rem + (per * k + min k (rem - min 1 rem))
          = per * (k + 1) + min (k + 1) rem := by
        rw [hm1]
        omega
      have e2 : cur + (per + min 1 rem) + (per * k + min k (rem - min 1 rem))
          = cur + (per * (k + 1) + min (k + 1) rem) := by
        rw [hm1]
        omega
      have e3 : per * (k + 1) + min (k + 1) (rem - min 1 rem)
          = per * (k + 1 + 1) + min (k + 1 + 1) rem - (per + min 1 rem) := by
        rw [hm2, hm1]
        omega
      rw [e1, e2, e3]
      have f1 : per * (k + 1 + 1) + min (k + 1 + 1) rem - (per + min 1 rem) -
            (per * k + min k (rem - min 1 rem))
          = per * (k + 1 + 1) + min (k + 1 + 1) rem - (per * (k + 1) + min (k + 1) rem) := by
        rw [hm2, hm1]
        omega
      have f2 : per * s + min s (rem - min 1 rem) -
            (per * (k + 1 + 1) + min (k + 1 + 1) rem - (per + min 1 rem))
          = per * (s + 1) + min (s + 1) rem - (per * (k + 1 + 1) + min (k + 1 + 1) rem) := by
        rw [hm2, hms]
        omega
      have f3 : cur + (per + min 1 rem) +
            (per * (k + 1 + 1) + min (k + 1 + 1) rem - (per + min 1 rem))
          = cur + (per * (k + 1 + 1) + min (k + 1 + 1) rem) := by
        rw [hm2]
        omega
      rw [f1, f2, f3]


theorem handle_jukujigun_split (p n : Nat) (f : Str) (hn : 0 < n) (hp : p < n) :
    (handle_jukujigun_case p n f).text =
      ((moraSplit f).take
        ((moraSplit f).length / n * p + min p ((moraSplit f).length % n))).flatten
      ++ bTag ++
      (((moraSplit f).drop
        ((moraSplit f).length / n * p + min p ((moraSplit f).length % n))).take
        ((moraSplit f).length / n +
          (if p < (moraSplit f).length % n then 1 else 0))).flatten
      ++ bTagClose ++
      ((moraSplit f).drop
        ((moraSplit f).length / n * (p + 1) + min (p + 1) ((moraSplit f).length % n))).flatten := by
  have hres := jukuGo_master (moraSplit f) p n ((moraSplit f).length / n) n 0 0
    ((moraSplit f).length % n) (by omega) (by omega) hp
  rw [handle_jukujigun_case]
  simp only [Nat.sub_zero] at hres
  rw [hres]
  simp only [List.drop_zero, Nat.zero_add]
  have hdm := Nat.div_add_mod (moraSplit f).length n
  have hmodlt : (moraSplit f).length % n < n := Nat.mod_lt _ hn
  revert hdm hmodlt
  generalize moraSplit f = L
  generalize L.length / n = per
  generalize hrem : L.length % n = rem
  intro hdm hmodlt
  have hcomm : per * n = n * per := Nat.mul_comm per n
  have htotal : per * n + min n rem = L.length := by omega
  have hmid : per * (p + 1) + min (p + 1) rem - (per * p + min p rem)
      = per + (if p < rem then 1 else 0) := by
    rw [Nat.mul_succ]
    by_cases hpr : p < rem
    · simp only [hpr, if_pos]
      omega
    · simp only [hpr, if_neg, not_false_eq_true]
      omega
  have hmulsucc : per * (p + 1) = per * p + per := by ring
  have htailarg : per * n + min n rem - (per * (p + 1) + min (p + 1) rem)
      = L.length - (per * (p + 1) + min (p + 1) rem) := by
    omega
  have htake : (L.drop (per * (p + 1) + min (p + 1) rem)).take
      (L.length - (per * (p + 1) + min (p + 1) rem))
      = L.drop (per * (p + 1) + min (p + 1) rem) := by
    have hlen : L.length - (per * (p + 1) + min (p + 1) rem)
        = (L.drop (per * (p + 1) + min (p + 1) rem)).length := by
      simp
    rw [hlen, List.take_length]
  rw [hmid, htailarg, htake]

end JukujigunLemmas

section EssenceLemmas

theorem essence_append (a b : Str) :
    essence (a ++ b) = essence a ++ essence b := by
  simp [essence, to_hiragana]

theorem essence_bTag : essence bTag = [] := by decide

theorem essence_bTagClose : essence bTagClose = [] := by decide

theorem essence_of_tagFree {s : Str} (h : tagFree s) :
    essence s = to_hiragana s := by
  unfold essence
  congr 1
  exact List.filter_eq_self.mpr (fun c hc => by simp [h c hc])

theorem tagFree_append {a b : Str} (ha : tagFree a) (hb : tagFree b) :
    tagFree (a ++ b) := by
  intro c hc
  rcases List.mem_append.mp hc with h | h
  · exact ha c h
  · exact hb c h

theorem tagFree_of_append_left {a b : Str} (h : tagFree (a ++ b)) : tagFree a :=
  fun c hc => h c (List.mem_append.mpr (Or.inl hc))

theorem tagFree_of_append_right {a b : Str} (h : tagFree (a ++ b)) : tagFree b :=
  fun c hc => h c (List.mem_append.mpr (Or.inr hc))

set_option maxRecDepth 20000 in
theorem hiraChar_table_facts :
    ∀ pr ∈ kanaShiftTable, hiraChar pr.2 = pr.1 ∧ hiraChar pr.1 = pr.1 := by
  decide

theorem hiraChar_kataChar (c : Char) : hiraChar (kataChar c) = hiraChar c := by
  unfold kataChar
  cases hf : kanaShiftTable.find? (fun p => p.1 == c) with
  | none => rfl
  | some pr =>
    have hmem := List.mem_of_find?_eq_some hf
    have hc : pr.1 = c := by
      have := List.find?_some hf
      simpa using this
    obtain ⟨h1, h2⟩ := hiraChar_table_facts pr hmem
    rw [← hc, h1, h2]

theorem to_hiragana_to_katakana (s : Str) :
    to_hiragana (to_katakana s) = to_hiragana s := by
  induction s with
  | nil => rfl
  | cons c t ih =>
    simp only [to_katakana, to_hiragana, List.map_cons] at *
    rw [hiraChar_kataChar]
    exact congrArg _ ih

set_option maxRecDepth 20000 in
theorem kataChar_table_not_tag :
    ∀ pr ∈ kanaShiftTable, isTagChar pr.2 = false := by
  decide

theorem isTagChar_kataChar {c : Char} (h : isTagChar c = false) :
    isTagChar (kataChar c) = false := by
  unfold kataChar
  cases hf : kanaShiftTable.find? (fun p => p.1 == c) with
  | none => exact h
  | some pr => exact kataChar_table_not_tag pr (List.mem_of_find?_eq_some hf)

theorem tagFree_to_katakana {s : Str} (h : tagFree s) : tagFree (to_katakana s) := by
  intro c hc
  obtain ⟨a, ha, rfl⟩ := List.mem_map.mp hc
  exact isTagChar_kataChar (h a ha)

theorem essence_replaceAllAux_nil (needle : Str) (hne : essence needle = []) :
    ∀ fuel s, essence (replaceAllAux needle [] fuel s) = essence s := by
  intro fuel
  induction fuel with
  | zero => intro s; rfl
  | succ f ih =>
    intro s
    cases s with
    | nil => rfl
    | cons c t =>
      rw [replaceAllAux]
      split
      · rename_i hcond
        obtain ⟨hpre, _⟩ := hcond
        have hsplit := prefix_drop_eq hpre
        rw [List.nil_append, ih _]
        conv_rhs => rw [← hsplit]
        rw [essence_append, hne, List.nil_append]
      · have hc : essence (c :: t) = essence [c] ++ essence t := by
          simpa using essence_append [c] t
        have hc2 : essence (c :: replaceAllAux needle [] f t)
            = essence [c] ++ essence (replaceAllAux needle [] f t) := by
          simpa using essence_append [c] (replaceAllAux needle [] f t)
        rw [hc2, ih t, ← hc]

theorem essence_replaceAll_nil (needle : Str) (hne : essence needle = []) :
    ∀ N s, s.length ≤ N → essence (replaceAll needle [] s) = essence s := by
  intro N s _
  exact essence_replaceAllAux_nil needle hne s.length s

end EssenceLemmas

section SpliceEssence

theorem essence_onyomiTagged_splice (p v q : Str) (hp : tagFree p)
    (hv : tagFree v) (hq : tagFree q) :
    essence (p ++ onyomiTagged v ++ q) = to_hiragana (p ++ v ++ q) := by
  unfold onyomiTagged
  simp only [essence_append, essence_bTag, essence_bTagClose,
    List.nil_append, List.append_nil]
  rw [essence_of_tagFree hp, essence_of_tagFree hq,
    essence_of_tagFree (tagFree_to_katakana hv), to_hiragana_to_katakana]
  simp [to_hiragana]

theorem essence_kunyomiTagged_splice (p v q : Str) (hp : tagFree p)
    (hv : tagFree v) (hq : tagFree q) :
    essence (p ++ kunyomiTagged v ++ q) = to_hiragana (p ++ v ++ q) := by
  unfold kunyomiTagged
  simp only [essence_append, essence_bTag, essence_bTagClose,
    List.nil_append, List.append_nil]
  rw [essence_of_tagFree hp, essence_of_tagFree hq, essence_of_tagFree hv]
  simp [to_hiragana]

theorem essence_splice_first_on (f v : Str) (hf : tagFree f) :
    essence (match splitFirst v f with
      | some (p, q) => p ++ onyomiTagged v ++ q
      | none => f) = to_hiragana f := by
  cases hsp : splitFirst v f with
  | none => exact essence_of_tagFree hf
  | some pq =>
    obtain ⟨p, q⟩ := pq
    have hs := splitFirst_spec v f p q hsp
    subst hs
    exact essence_onyomiTagged_splice p v q
      (tagFree_of_append_left (tagFree_of_append_left hf))
      (tagFree_of_append_right (tagFree_of_append_left hf))
      (tagFree_of_append_right hf)

theorem essence_splice_last_on (f v : Str) (hf : tagFree f) :
    essence (match splitLast v f with
      | some (p, q) => p ++ onyomiTagged v ++ q
      | none => f) = to_hiragana f := by
  cases hsp : splitLast v f with
  | none => exact essence_of_tagFree hf
  | some pq =>
    obtain ⟨p, q⟩ := pq
    have hs := splitLast_spec v f p q hsp
    subst hs
    exact essence_onyomiTagged_splice p v q
      (tagFree_of_append_left (tagFree_of_append_left hf))
      (tagFree_of_append_right (tagFree_of_append_left hf))
      (tagFree_of_append_right hf)

theorem essence_splice_first_kun (f v : Str) (hf : tagFree f) :
    essence (match splitFirst v f with
      | some (p, q) => p ++ kunyomiTagged v ++ q
      | none => f) = to_hiragana f := by
  cases hsp : splitFirst v f with
  | none => exact essence_of_tagFree hf
  | some pq =>
    obtain ⟨p, q⟩ := pq
    have hs := splitFirst_spec v f p q hsp
    subst hs
    exact essence_kunyomiTagged_splice p v q
      (tagFree_of_append_left (tagFree_of_append_left hf))
      (tagFree_of_append_right (tagFree_of_append_left hf))
      (tagFree_of_append_right hf)

theorem essence_splice_last_kun (f v : Str) (hf : tagFree f) :
    essence (match splitLast v f with
      | some (p, q) => p ++ kunyomiTagged v ++ q
      | none => f) = to_hiragana f := by
  cases hsp : splitLast v f with
  | none => exact essence_of_tagFree hf
  | some pq =>
    obtain ⟨p, q⟩ := pq
    have hs := splitLast_spec v f p q hsp
    subst hs
    exact essence_kunyomiTagged_splice p v q
      (tagFree_of_append_left (tagFree_of_append_left hf))
      (tagFree_of_append_right (tagFree_of_append_left hf))
      (tagFree_of_append_right hf)

theorem essence_replace_onyomi (f v : Str) (e : Edge) (hf : tagFree f) :
    essence (replace_onyomi_match f v e) = to_hiragana f := by
  cases e with
  | right => exact essence_splice_last_on f v hf
  | left => exact essence_splice_first_on f v hf
  | middle => exact essence_splice_first_on f v hf
  | whole => exact essence_splice_first_on f v hf

theorem essence_replace_kunyomi (f v : Str) (e : Edge) (hf : tagFree f) :
    essence (replace_kunyomi_match f v e) = to_hiragana f := by
  cases e with
  | right => exact essence_splice_last_kun f v hf
  | left => exact essence_splice_first_kun f v hf
  | middle => exact essence_splice_first_kun f v hf
  | whole => exact essence_splice_first_kun f v hf

theorem tagFree_flatten_sub {L : List Str} {M : List Str}
    (hsub : M ⊆ L) (h : tagFree L.flatten) : tagFree M.flatten := by
  intro c hc
  obtain ⟨s, hsM, hcs⟩ := List.mem_flatten.mp hc
  exact h c (List.mem_flatten.mpr ⟨s, hsub hsM, hcs⟩)

theorem essence_jukujigun (p n : Nat) (f : Str) (hn : 0 < n) (hp : p < n)
    (hf : tagFree f) (hloss : (moraSplit f).flatten = f) :
    essence (handle_jukujigun_case p n f).text = to_hiragana f := by
  rw [handle_jukujigun_split p n f hn hp]
  simp only [essence_append, essence_bTag, essence_bTagClose,
    List.nil_append, List.append_nil]
  have hLf : tagFree (moraSplit f).flatten := by rw [hloss]; exact hf
  have h1 : tagFree ((moraSplit f).take
      ((moraSplit f).length / n * p + min p ((moraSplit f).length % n))).flatten :=
    tagFree_flatten_sub (List.take_subset _ _) hLf
  have h2 : tagFree (((moraSplit f).drop
      ((moraSplit f).length / n * p + min p ((moraSplit f).length % n))).take
      ((moraSplit f).length / n +
        (if p < (moraSplit f).length % n then 1 else 0))).flatten :=
    tagFree_flatten_sub (List.Subset.trans (List.take_subset _ _) (List.drop_subset _ _)) hLf
  have h3 : tagFree ((moraSplit f).drop
      ((moraSplit f).length / n * (p + 1) + min (p + 1) ((moraSplit f).length % n))).flatten :=
    tagFree_flatten_sub (List.drop_subset _ _) hLf
  rw [essence_of_tagFree h1, essence_of_tagFree h2, essence_of_tagFree h3]
  have hcombine :
      ((moraSplit f).take
        ((moraSplit f).length / n * p + min p ((moraSplit f).length % n))).flatten ++
      (((moraSplit f).drop
        ((moraSplit f).length / n * p + min p ((moraSplit f).length % n))).take
        ((moraSplit f).length / n +
          (if p < (moraSplit f).length % n then 1 else 0))).flatten ++
      ((moraSplit f).drop
        ((moraSplit f).length / n * (p + 1) + min (p + 1) ((moraSplit f).length % n))).flatten
      = (moraSplit f).flatten := by
    have hsum : (moraSplit f).length / n * p + min p ((moraSplit f).length % n) +
        ((moraSplit f).length / n + (if p < (moraSplit f).length % n then 1 else 0))
        = (moraSplit f).length / n * (p + 1) + min (p + 1) ((moraSplit f).length % n) := by
      rw [Nat.mul_succ]
      by_cases hpr : p < (moraSplit f).length % n
      · simp only [hpr, if_pos]
        omega
      · simp only [hpr, if_neg, not_false_eq_true]
        omega
    have hfirst := slice_flatten_append (moraSplit f) 0
      ((moraSplit f).length / n * p + min p ((moraSplit f).length % n))
      ((moraSplit f).length / n + (if p < (moraSplit f).length % n then 1 else 0))
    simp only [List.drop_zero, Nat.zero_add] at hfirst
    rw [hfirst, hsum]
    rw [← List.flatten_append, List.take_append_drop]
  conv_rhs => rw [← hloss, ← hcombine]
  simp [to_hiragana]

end SpliceEssence

section ProcessEssence

theorem check_onyomi_text_essence (onyomi f sec : Str) (e : Edge)
    (hf : tagFree f)
    (ht : (check_onyomi_readings onyomi f sec e false).rtype = .onyomi) :
    essence (check_onyomi_readings onyomi f sec e false).text = to_hiragana f := by
  unfold check_onyomi_readings at *
  cases hfind : findOnyomiMatch (sortByLenDesc (splitOnSep '、' onyomi)) sec with
  | none => rw [hfind] at ht; simp at ht
  | some rv =>
    obtain ⟨r, v⟩ := rv
    simpa using essence_replace_onyomi f v e hf

theorem check_kunyomi_text_essence (kunyomi f sec : Str) (e : Edge)
    (hf : tagFree f)
    (ht : (check_kunyomi_readings kunyomi f sec e false).rtype = .kunyomi) :
    essence (check_kunyomi_readings kunyomi f sec e false).text = to_hiragana f := by
  unfold check_kunyomi_readings at *
  cases hfind : findKunyomiMatch (splitOnSep '、' kunyomi) sec with
  | noneFound => rw [hfind] at ht; simp at ht
  | malformed => simpa using essence_of_tagFree hf
  | found v => simpa using essence_replace_kunyomi f v e hf

theorem process_partition (ha : HighlightArgs) (wd : WordData) (b : Bool) :
    (process_readings ha wd b).2.1 ++ (process_readings ha wd b).2.2.1
      = wd.okurigana := by
  unfold process_readings
  split
  · simp
  · split
    · exact okuriLoop_partition _ wd ha
    · split
      · simp
      · simp

theorem process_onyomi_rest (ha : HighlightArgs) (wd : WordData) (b : Bool)
    (ht : (process_readings ha wd b).1.rtype = .onyomi) :
    (process_readings ha wd b).2.1 = [] ∧
      (process_readings ha wd b).2.2.1 = wd.okurigana := by
  unfold process_readings at ht ⊢
  split at ht
  · rename_i hon
    simp only [if_pos hon]
    simp
  · rename_i hon
    simp only [if_neg hon]
    split at ht
    · rename_i hkun
      rw [hkun] at ht
      simp at ht
    · rename_i hkun
      simp only [if_neg hkun]
      split at ht
      · simp [handle_jukujigun_case] at ht
      · simp at ht

theorem process_text_essence (ha : HighlightArgs) (wd : WordData)
    (p0 n0 : Nat) (hwp : wd.kanji_pos = some p0) (hwc : wd.kanji_count = some n0)
    (hn : 0 < n0) (hp : p0 < n0) (hf : tagFree wd.furigana)
    (hloss : (moraSplit wd.furigana).flatten = wd.furigana) :
    essence (process_readings ha wd false).1.text = to_hiragana wd.furigana := by
  unfold process_readings
  split
  · rename_i hon
    exact check_onyomi_text_essence _ _ _ _ hf hon
  · split
    · rename_i hkun
      exact check_kunyomi_text_essence _ _ _ _ hf hkun
    · split
      · rename_i n p hc hpp
        rw [hwc] at hc
        rw [hwp] at hpp
        injection hc with hc2
        injection hpp with hp2
        subst hc2
        subst hp2
        exact essence_jukujigun _ _ wd.furigana hn hp hf hloss
      · rename_i hnone
        exact (hnone n0 p0 hwc hwp).elim



theorem findSubIdx_lt (hay needle : Str) (i : Nat) (hne : hay ≠ [])
    (h : findSubIdx hay needle = some i) : i < hay.length := by
  induction hay generalizing i with
  | nil => exact absurd rfl hne
  | cons c t ih =>
    rw [findSubIdx] at h
    split at h
    · rename_i hpre
      simp only [Option.some.injEq] at h
      subst h
      simp
    · rename_i hpre
      cases hft : findSubIdx t needle with
      | none => rw [hft] at h; simp at h
      | some j =>
        rw [hft] at h
        simp at h
        subst h
        have htne : t ≠ [] := by
          intro h0
          subst h0
          rw [findSubIdx] at hft
          by_cases hne2 : needle.isEmpty
          · have : needle = [] := by simpa [List.isEmpty_iff] using hne2
            subst this
            simp at hpre
          · simp [hne2] at hft
        have := ih j htne hft
        simp
        omega

theorem handle_whole_essence (ha : HighlightArgs) (word furigana okurigana : Str)
    (hf : tagFree furigana) (hok : tagFree okurigana) :
    essence (handle_whole_kanji_case ha word furigana okurigana).1
      = to_hiragana (furigana ++ okurigana) := by
  unfold handle_whole_kanji_case
  have hpart := process_partition ha (wholeWordData word furigana okurigana) true
  have hpart2 : (process_readings ha (wholeWordData word furigana okurigana) true).2.1 ++
      (process_readings ha (wholeWordData word furigana okurigana) true).2.2.1
      = okurigana := hpart
  have hhl : tagFree ((process_readings ha (wholeWordData word furigana okurigana) true).2.1 ++
      (process_readings ha (wholeWordData word furigana okurigana) true).2.2.1) := by
    rw [hpart2]
    exact hok
  have hh := tagFree_of_append_left hhl
  have hr := tagFree_of_append_right hhl
  split
  · rename_i hon
    obtain ⟨h1, h2⟩ := process_onyomi_rest ha (wholeWordData word furigana okurigana) true hon
    simp only [essence_append, essence_bTag, essence_bTagClose,
      List.nil_append, List.append_nil]
    rw [essence_of_tagFree (tagFree_to_katakana hf), to_hiragana_to_katakana,
      essence_of_tagFree hr]
    have h2b : (process_readings ha (wholeWordData word furigana okurigana) true).2.2.1
        = okurigana := h2
    rw [h2b]
    simp [to_hiragana]
  · simp only [essence_append, essence_bTag, essence_bTagClose,
      List.nil_append, List.append_nil]
    rw [essence_of_tagFree hf, essence_of_tagFree hh, essence_of_tagFree hr]
    conv_rhs => rw [← hpart2]
    simp [to_hiragana]


theorem handle_partial_essence (ha : HighlightArgs) (word furigana okurigana : Str)
    (hw : word ≠ []) (hf : tagFree furigana) (hok : tagFree okurigana)
    (hloss : (moraSplit furigana).flatten = furigana) :
    essence (handle_partial_kanji_case ha word furigana okurigana).1
      = to_hiragana (furigana ++ okurigana) := by
  unfold handle_partial_kanji_case
  split
  · exact essence_of_tagFree (tagFree_append hf hok)
  · rename_i x pos hidx
    have hn : 0 < word.length := by
      cases word with
      | nil => exact absurd rfl hw
      | cons c t => simp
    have hp : pos < word.length := findSubIdx_lt word ha.kanji_to_highlight pos hw hidx
    have htext : essence (process_readings ha
          (partialWordData word furigana okurigana pos) false).1.text
        = to_hiragana furigana :=
      process_text_essence ha (partialWordData word furigana okurigana pos)
        pos word.length rfl rfl hn hp hf hloss
    have hpart := process_partition ha (partialWordData word furigana okurigana pos) false
    have hpart2 : (process_readings ha (partialWordData word furigana okurigana pos) false).2.1 ++
        (process_readings ha (partialWordData word furigana okurigana pos) false).2.2.1
        = okurigana := hpart
    have hhl : tagFree ((process_readings ha (partialWordData word furigana okurigana pos) false).2.1 ++
        (process_readings ha (partialWordData word furigana okurigana pos) false).2.2.1) := by
      rw [hpart2]
      exact hok
    have hh := tagFree_of_append_left hhl
    have hr := tagFree_of_append_right hhl
    split
    · rename_i hemp
      have hemp2 : (process_readings ha (partialWordData word furigana okurigana pos) false).2.1
          = [] := by
        simpa [List.isEmpty_iff] using hemp
      have hrest : (process_readings ha (partialWordData word furigana okurigana pos) false).2.2.1
          = okurigana := by
        rw [hemp2] at hpart2
        simpa using hpart2
      rw [essence_append, htext, essence_of_tagFree hr, hrest]
      simp [to_hiragana]
    · rw [essence_replaceAll_nil (bTagClose ++ bTag) (by decide) _ _ (le_refl _)]
      simp only [essence_append, essence_bTag, essence_bTagClose,
        List.nil_append, List.append_nil]
      rw [htext, essence_of_tagFree hh, essence_of_tagFree hr]
      conv_rhs => rw [← hpart2]
      simp [to_hiragana]

end ProcessEssence

section SupportFacts

theorem occursIn_of_isPrefixOf {n h : Str} (hp : n.isPrefixOf h = true) :
    occursIn n h = true := by
  cases h with
  | nil =>
    rw [occursIn]
    rw [List.isPrefixOf_iff_prefix] at hp
    have := List.prefix_nil.mp hp
    simp [this]
  | cons c t =>
    rw [occursIn, hp]
    simp

theorem occursIn_self (s : Str) : occursIn s s = true := by
  cases s with
  | nil => rfl
  | cons c t =>
    apply occursIn_of_isPrefixOf
    rw [List.isPrefixOf_iff_prefix]

theorem findSubIdx_some_occurs (hay needle : Str) (i : Nat)
    (h : findSubIdx hay needle = some i) : occursIn needle hay = true := by
  induction hay generalizing i with
  | nil =>
    rw [findSubIdx] at h
    by_cases hne : needle.isEmpty
    · have : needle = [] := by simpa [List.isEmpty_iff] using hne
      subst this
      rfl
    · simp [hne] at h
  | cons c t ih =>
    rw [findSubIdx] at h
    split at h
    · rename_i hpre
      exact occursIn_of_isPrefixOf hpre
    · rename_i hpre
      cases hft : findSubIdx t needle with
      | none => rw [hft] at h; simp at h
      | some j =>
        rw [occursIn]
        rw [ih j hft]
        simp

end SupportFacts

section Claims

/-- C1: the substring of the gloss matched against readings is fixed by the
edge classification (whole: the gloss; left: gloss minus its last character;
right: gloss minus its first character; middle: gloss minus both), and the
onyomi matcher only ever matches strings occurring inside that substring; in
particular, for a left-edge word whatever the onyomi pass matches occurs in
the gloss minus its last character, so a reading occurring only within the
last gloss character is never matched. -/
theorem C1_edge_sections_and_matching :
    (∀ f : Str,
      get_target_furigana_section f .whole = f ∧
      get_target_furigana_section f .left = f.dropLast ∧
      get_target_furigana_section f .right = f.drop 1 ∧
      get_target_furigana_section f .middle = (f.drop 1).dropLast) ∧
    (∀ readings sec r v, findOnyomiMatch readings sec = some (r, v) →
      occursIn v sec = true) ∧
    (∀ onyomi f r v,
      findOnyomiMatch (sortByLenDesc (splitOnSep '、' onyomi))
        (get_target_furigana_section f .left) = some (r, v) →
      occursIn v f.dropLast = true) := by
  refine ⟨fun f => ⟨rfl, rfl, rfl, rfl⟩, ?_, ?_⟩
  · intro readings sec r v h
    exact findOnyomiMatch_occurs readings sec r v h
  · intro onyomi f r v h
    exact findOnyomiMatch_occurs _ _ r v h

/-- Witness for C1 at a concrete left-edge input: the matcher matches し
inside the gloss minus its last character. -/
theorem C1_witness :
    occursIn ((r"し").toList) (((r"しか").toList).dropLast) = true :=
  C1_edge_sections_and_matching.2.2 ((r"し").toList) ((r"しか").toList)
    ((r"し").toList) ((r"し").toList) (by decide)

/-- C2 counterexample: with onyomi list し(あ)、じじ on section じじし, both
stripped readings occur in the section and じじ is strictly longer than し
after annotation stripping, yet し is the one highlighted, because the sort
key is the raw annotated length; and with kunyomi list と、となり on section
となり, the shorter earlier と shadows the longer となり. -/
theorem C2_counterexample :
    check_onyomi_readings ((r"し(あ)、じじ").toList) ((r"じじし").toList)
      ((r"じじし").toList) .whole false
      = { text := (r"じじ<b>シ</b>").toList, rtype := .onyomi } ∧
    occursIn (processOnyomiReading ((r"し(あ)").toList)) ((r"じじし").toList) = true ∧
    occursIn (processOnyomiReading ((r"じじ").toList)) ((r"じじし").toList) = true ∧
    (processOnyomiReading ((r"し(あ)").toList)).length
      < (processOnyomiReading ((r"じじ").toList)).length ∧
    check_onyomi_readings ((r"し(あ)、じじ").toList) ((r"じじし").toList)
      ((r"じじし").toList) .whole false
      ≠ { text := (r"<b>ジジ</b>し").toList, rtype := .onyomi } ∧
    check_kunyomi_readings ((r"と、となり").toList) ((r"となり").toList)
      ((r"となり").toList) .whole false
      = { text := (r"<b>と</b>なり").toList, rtype := .kunyomi } ∧
    occursIn ((r"となり").toList) ((r"となり").toList) = true ∧
    ((r"と").toList).length < ((r"となり").toList).length := by
  decide

/-- C2 (amended): onyomi readings are tried longest-raw-first (the sort key
includes the parenthetical annotation), so the reading that produces the
match is at least as long in raw form as any reading whose processed form
occurs directly in the section; kunyomi readings are tried in list order, so
the first reading whose stem (or variant) matches wins regardless of longer
readings later in the list. -/
theorem C2_reading_precedence :
    (∀ onyomi sec r, r ∈ splitOnSep '、' onyomi →
      occursIn (processOnyomiReading r) sec = true →
      ∃ p, findOnyomiMatch (sortByLenDesc (splitOnSep '、' onyomi)) sec = some p ∧
        r.length ≤ p.1.length) ∧
    (∀ sec l1 r l2 stem v,
      (∀ r2 ∈ l1, ∃ s2, kunyomiStemOf r2 = some s2 ∧
        kunyomiStemMatch s2 sec = none) →
      kunyomiStemOf r = some stem → kunyomiStemMatch stem sec = some v →
      findKunyomiMatch (l1 ++ r :: l2) sec = .found v) := by
  constructor
  · intro onyomi sec r hr hocc
    exact findOnyomiMatch_maxlen sec _ (sortByLenDesc_pairwise _) r
      (mem_sortByLenDesc.mpr hr) hocc
  · intro sec l1 r l2 stem v hfail hstem hmatch
    exact findKunyomiMatch_first sec l1 r l2 stem v hfail hstem hmatch

/-- Witness for C2 at a concrete input: since じじ occurs in the section, the
onyomi pass succeeds with a raw reading at least as long as じじ. -/
theorem C2_witness :
    ∃ p, findOnyomiMatch (sortByLenDesc (splitOnSep '、' ((r"し、じじ").toList)))
      ((r"じじし").toList) = some p ∧ ((r"じじ").toList).length ≤ p.1.length :=
  C2_reading_precedence.1 ((r"し、じじ").toList) ((r"じじし").toList)
    ((r"じじ").toList) (by decide) (by decide)

/-- C5 counterexample: the kunyomi pass applies the rendaku conversion to a
single-kana reading (く is converted to ぐ and matched), although the claim
says the conversion is attempted only when the reading has length greater
than 1 in both passes; direct occurrence and gemination are ruled out, so the
match can only have come from the rendaku branch. -/
theorem C5_counterexample :
    check_kunyomi_readings ((r"く").toList) ((r"ぐ").toList) ((r"ぐ").toList)
      .whole false
      = { text := (r"<b>ぐ</b>").toList, rtype := .kunyomi } ∧
    ((r"く").toList).length = 1 ∧
    occursIn ((r"く").toList) ((r"ぐ").toList) = false ∧
    geminationMatch ((r"く").toList) ((r"ぐ").toList) = none := by
  decide

/-- C5 (amended): every string matched by the per-reading onyomi check is the
reading itself, a first-kana rendaku variant of a reading longer than one
kana, or a last-kana gemination variant; the kunyomi check is identical
except that its rendaku branch carries no length restriction.  No other
position of a reading is ever altered. -/
theorem C5_sound_change_positions :
    (∀ r sec v, onyomiReadingMatch r sec = some v →
      v = r ∨
      (∃ c rest alts k, r = c :: rest ∧ rest ≠ [] ∧
        hiraganaConversion c = some alts ∧ k ∈ alts ∧ v = k :: rest) ∨
      (∃ lc, r.getLast? = some lc ∧ lc ∈ SMALL_TSU_POSSIBLE_HIRAGANA ∧
        v = r.dropLast ++ ['っ'])) ∧
    (∀ stem sec v, kunyomiStemMatch stem sec = some v →
      v = stem ∨
      (∃ c rest alts k, stem = c :: rest ∧
        hiraganaConversion c = some alts ∧ k ∈ alts ∧ v = k :: rest) ∨
      (∃ lc, stem.getLast? = some lc ∧ lc ∈ SMALL_TSU_POSSIBLE_HIRAGANA ∧
        v = stem.dropLast ++ ['っ'])) :=
  ⟨onyomiReadingMatch_shape, kunyomiStemMatch_shape⟩

/-- Witness for C5 at a concrete input: the match of かい against がい is
explained by one of the three permitted shapes. -/
theorem C5_witness :
    ((r"がい").toList) = ((r"かい").toList) ∨
    (∃ c rest alts k, ((r"かい").toList) = c :: rest ∧ rest ≠ [] ∧
      hiraganaConversion c = some alts ∧ k ∈ alts ∧ ((r"がい").toList) = k :: rest) ∨
    (∃ lc, ((r"かい").toList).getLast? = some lc ∧
      lc ∈ SMALL_TSU_POSSIBLE_HIRAGANA ∧
      ((r"がい").toList) = ((r"かい").toList).dropLast ++ ['っ']) :=
  C5_sound_change_positions.1 ((r"かい").toList) ((r"がい").toList)
    ((r"がい").toList) (by decide)

/-- C9: in every branch, the okurigana inflection matcher returns an exact
partition of the unit's trailing kana: the highlighted part followed by the
returned rest is the original trailing kana. -/
theorem C9_okurigana_partition :
    ∀ (kunyomi_okurigana : Str) (word_data : WordData)
      (highlight_args : HighlightArgs),
    (check_okurigana_for_kunyomi_inflection kunyomi_okurigana word_data
      highlight_args).1 ++
    (check_okurigana_for_kunyomi_inflection kunyomi_okurigana word_data
      highlight_args).2 = word_data.okurigana :=
  fun ko wd ha => check_okurigana_partition ko wd ha

/-- C3: the round trip fails in the program: bracket_replace returns the word
group of FURIGANA_RE (its comment notwithstanding), so kana_filter deletes
the reading and — through the kanji strip — the word too, returning the empty
string on 切手[きって]; the highlighted text meanwhile keeps kana content きて
(the jukujigun segmentation having also dropped the っ), so
stripReadings(highlight(...)) differs from stripReadings(text) even after
removing the emphasis markers. -/
theorem C3_round_trip_fails :
    kana_filter ((r"切手[きって]").toList) = [] ∧
    (kana_highlight ((r"切").toList) ((r"さ").toList) ((r"あ").toList)
      ((r"切手[きって]").toList)).1 = (r"<b>き</b>て").toList ∧
    removeTags (kana_filter ((kana_highlight ((r"切").toList) ((r"さ").toList)
      ((r"あ").toList) ((r"切手[きって]").toList)).1)) = (r"きて").toList ∧
    (r"きて").toList ≠ ([] : Str) := by
  refine ⟨by rfl, by rfl, by rfl, by decide⟩

/-- The positive side of the replacement step: for one replaced unit whose
gloss does not start with the audio marker, whose word is nonempty and whose
gloss and trailing kana are marker-free, the kana content of the replacement
(markers removed, script normalized to hiragana) equals the hiragana
normalization of gloss plus trailing kana, provided the mora segmentation of
the gloss is lossless. -/
theorem replaced_unit_content_preserved (ha : HighlightArgs)
    (word furigana okurigana : Str) (hw : word ≠ [])
    (hf : tagFree furigana) (hok : tagFree okurigana)
    (hloss : (moraSplit furigana).flatten = furigana)
    (hsound : ((r"sound:").toList).isPrefixOf furigana = false) :
    essence (furigana_replacer ha word furigana okurigana).1
      = to_hiragana (furigana ++ okurigana) := by
  unfold furigana_replacer
  rw [if_neg (by intro hc; rw [hsound] at hc; exact Bool.noConfusion hc)]
  split
  · exact handle_whole_essence ha word furigana okurigana hf hok
  · exact handle_partial_essence ha word furigana okurigana hw hf hok hloss

/-- C4: pre-existing emphasis markers are not stripped before processing: on
<b>た</b>母[はは] the markers around た survive into the output next to the
new highlight, whereas the same text without them yields た<b>はは</b>; so
the output differs from what stripping-then-reprocessing would produce. -/
theorem C4_markers_not_stripped :
    (kana_highlight ((r"母").toList) ((r"カ").toList) ((r"はは").toList)
      ((r"<b>た</b>母[はは]").toList)).1 = (r"<b>た</b><b>はは</b>").toList ∧
    (kana_highlight ((r"母").toList) ((r"カ").toList) ((r"はは").toList)
      ((r"た母[はは]").toList)).1 = (r"た<b>はは</b>").toList ∧
    (r"<b>た</b><b>はは</b>").toList ≠ (r"た<b>はは</b>").toList := by
  refine ⟨by rfl, by rfl, by decide⟩

/-- C6 counterexample: on こんご split over two characters the segmentation
drops ん (absent from the mora table), so the emitted text is <b>こ</b>ご and
the mora outside the highlighted range do not reproduce the gloss; moreover
the single-kana entry ゔ precedes the two-kana entry ゔぇ in the mora table,
so multi-kana units are not attempted before single-kana units. -/
theorem C6_counterexample :
    handle_jukujigun_case 0 2 ((r"こんご").toList)
      = { text := (r"<b>こ</b>ご").toList, rtype := .kunyomi } ∧
    removeTags ((r"<b>こ</b>ご").toList) ≠ (r"こんご").toList ∧
    firstMoraAt ((r"ゔぇ").toList) = some ((r"ゔ").toList) ∧
    (r"ゔぇ").toList ∈ ALL_MORA := by
  refine ⟨by rfl, by decide, by rfl, by decide⟩

/-- C6 (amended): in the no-match path the mora count is divided evenly by
the character count, the remainder is handed out one extra mora per character
from the first character on, and exactly the contiguous mora range of the
target position is wrapped in emphasis markers, the rest emitted as segmented
(the segmentation itself drops ん, っ and ー and tries the mora table in
table order, not multi-kana-first). -/
theorem C6_jukujigun_distribution (p n : Nat) (f : Str) (hn : 0 < n)
    (hp : p < n) :
    (handle_jukujigun_case p n f).text =
      ((moraSplit f).take
        ((moraSplit f).length / n * p + min p ((moraSplit f).length % n))).flatten
      ++ bTag ++
      (((moraSplit f).drop
        ((moraSplit f).length / n * p + min p ((moraSplit f).length % n))).take
        ((moraSplit f).length / n +
          (if p < (moraSplit f).length % n then 1 else 0))).flatten
      ++ bTagClose ++
      ((moraSplit f).drop
        ((moraSplit f).length / n * (p + 1) +
          min (p + 1) ((moraSplit f).length % n))).flatten ∧
    (handle_jukujigun_case p n f).rtype = .kunyomi :=
  ⟨handle_jukujigun_split p n f hn hp, rfl⟩

/-- Witness for C6 at a concrete input: あいうえお over three characters with
target position 1 gives two mora to each of the first two characters and one
to the last, highlighting うえ. -/
theorem C6_witness :
    (handle_jukujigun_case 1 3 ((r"あいうえお").toList)).text
      = (r"あい<b>うえ</b>お").toList :=
  ((C6_jukujigun_distribution 1 3 ((r"あいうえお").toList)
    (by decide) (by decide)).1).trans (by rfl)

/-- C7: the conjugation-table stage takes the first table entry (in the
iteration order of the underlying Python set) that is a prefix of the
remaining trailing kana, not the longest: on trailing kana ったら (kunyomi
okurigana つ) it returns った・ら although the longer たら is also in the
table and is a prefix of the remainder たら. -/
theorem C7_inflection_first_match :
    check_okurigana_for_kunyomi_inflection ((r"つ").toList)
      { kanji_pos := some 0, kanji_count := some 1, word := (r"待").toList,
        furigana := (r"ま").toList, okurigana := (r"ったら").toList,
        edge := .whole }
      { text := [], onyomi := [], kunyomi := (r"ま.つ").toList,
        kanji_to_highlight := (r"待").toList }
      = ((r"った").toList, (r"ら").toList) ∧
    firstPrefixSplit VERB_ALL_OKURIGANA ((r"たら").toList)
      = some ((r"た").toList, (r"ら").toList) ∧
    (r"たら").toList ∈ VERB_ALL_OKURIGANA ∧
    (((r"たら").toList).isPrefixOf ((r"たら").toList) = true) ∧
    ((r"た").toList).length < ((r"たら").toList).length := by
  refine ⟨by rfl, by rfl, by decide, by decide, by decide⟩

/-- C8: a kunyomi entry with two inflection separators is detected locally
and the unit keeps its gloss, but the diagnostic goes to the module's
internal no-op logger rather than the caller-supplied sink (the message list
is empty), and because the result is typed as a kunyomi match the whole-word
path wraps the gloss in emphasis markers instead of returning it
unmodified. -/
theorem C8_malformed_kunyomi :
    check_kunyomi_readings ((r"て.ん.く").toList) ((r"てん").toList)
      ((r"てん").toList) .whole false
      = { text := (r"てん").toList, rtype := .kunyomi } ∧
    kana_highlight ((r"天").toList) ((r"カ").toList) ((r"て.ん.く").toList)
      ((r"天[てん]").toList)
      = ((r"<b>てん</b>").toList, ([] : List String)) := by
  refine ⟨by rfl, by rfl⟩

/-- C10: a unit whose gloss does not start with the audio marker and whose
word does not contain the target character is replaced by its gloss followed
by its trailing kana, with no markers added and no message emitted (the
bracket notation and the word's characters disappear from the output). -/
theorem C10_unit_without_target (ha : HighlightArgs)
    (word furigana okurigana : Str)
    (hsound : ((r"sound:").toList).isPrefixOf furigana = false)
    (hocc : occursIn ha.kanji_to_highlight word = false) :
    furigana_replacer ha word furigana okurigana
      = (furigana ++ okurigana, []) := by
  unfold furigana_replacer
  rw [if_neg (by intro hc; rw [hsound] at hc; exact Bool.noConfusion hc)]
  rw [if_neg ?hne]
  case hne =>
    intro h
    rcases h with h | h
    · rw [h, occursIn_self] at hocc
      exact absurd hocc (by simp)
    · have hp : ha.kanji_to_highlight.isPrefixOf
          (ha.kanji_to_highlight ++ ['々']) = true := by
        rw [List.isPrefixOf_iff_prefix]
        exact List.prefix_append _ _
      rw [h, occursIn_of_isPrefixOf hp] at hocc
      exact absurd hocc (by simp)
  unfold handle_partial_kanji_case
  cases hidx : findSubIdx word ha.kanji_to_highlight with
  | none => rfl
  | some i =>
    have := findSubIdx_some_occurs word ha.kanji_to_highlight i hidx
    rw [this] at hocc
    exact absurd hocc (by simp)

/-- Witness for C10 at a concrete input: the unit 聞[き]いた with target 天 is
replaced by its gloss and trailing kana unchanged. -/
theorem C10_witness :
    furigana_replacer
      { text := [], onyomi := [], kunyomi := [],
        kanji_to_highlight := (r"天").toList }
      ((r"聞").toList) ((r"き").toList) ((r"いた").toList)
      = ((r"き").toList ++ (r"いた").toList, []) :=
  C10_unit_without_target
    { text := [], onyomi := [], kunyomi := [],
      kanji_to_highlight := (r"天").toList }
    ((r"聞").toList) ((r"き").toList) ((r"いた").toList)
    (by rfl) (by rfl)

end Claims

end KanaSpec
